import Mathlib

/-!
Verification of `src/lib/context-helpers.js` from `hyperclick-latex`.

The module is a set of stateless cursor-context classifiers over a single
line of LaTeX source.  We embed each classifier as a Lean function over
`List Char` (the line), `Int` cursor offsets (JavaScript string indices,
with `-1` as the "not found" sentinel of `indexOf`/`lastIndexOf`) and a
caller-supplied context record.  JavaScript string primitives
(`indexOf`, `lastIndexOf`, `slice`) and the regular expressions of the
source (with their backtracking behaviour) are modelled explicitly below.
A JavaScript exception (the source dereferences a possibly-`null` regex
match in `isFilePath`) is modelled by an explicit `err` result.
-/

/-- A buffer position, as in the editor API: `row` and `column`,
where a column is the gap to the left of the character with that index. -/
structure Point where
  row : Int
  column : Int
deriving DecidableEq, Repr

/-- A `Range` as constructed by the source: a start and an end `Point`. -/
structure JsRange where
  start : Point
  stop : Point
deriving DecidableEq, Repr

/-- The caller-supplied context record: current line text, cursor offset
within it, the previously tokenized value with its start/end offsets and
its own range, and the active syntax-scope names at the cursor. -/
structure Ctx where
  line : List Char
  index : Int
  value : List Char
  startIndex : Int
  endIndex : Int
  range : JsRange
  scopes : List String
deriving DecidableEq, Repr

/-- JavaScript regular-expression class `\s` (ECMAScript WhiteSpace and
LineTerminator characters). -/
def isJsWs (c : Char) : Bool :=
  c == ' ' || c == '\t' || c == '\n' || c == '\x0b' || c == '\x0c' || c == '\r' ||
  c == ' ' || c == ' ' || (' ' ≤ c && c ≤ ' ') ||
  c == ' ' || c == ' ' || c == ' ' || c == ' ' ||
  c == '　' || c == '﻿'

/-- ECMAScript LineTerminator characters: the characters the regex
metacharacter `.` does not match. -/
def isLineTerm (c : Char) : Bool :=
  c == '\n' || c == '\r' || c == ' ' || c == ' '

/-- Index of the first occurrence of `c` in `l`, if any. -/
def firstIdx : List Char → Char → Option Nat
  | [], _ => none
  | x :: xs, c => if x = c then some 0 else (firstIdx xs c).map (· + 1)

/-- Index of the last occurrence of `c` in `l`, if any. -/
def lastIdx : List Char → Char → Option Nat
  | [], _ => none
  | x :: xs, c =>
    match lastIdx xs c with
    | some i => some (i + 1)
    | none => if x = c then some 0 else none

/-- JavaScript `String.prototype.indexOf(c, n)` for a single-character
search string: the smallest index `≥ max(n,0)` holding `c`, else `-1`. -/
def jsIndexOf (l : List Char) (c : Char) (n : Int) : Int :=
  match firstIdx (l.drop n.toNat) c with
  | some i => ((n.toNat + i : Nat) : Int)
  | none => -1

/-- JavaScript `String.prototype.lastIndexOf(c, n)` for a single-character
search string: the largest index `≤ max(n,0)` holding `c`, else `-1`.
(A negative `n` is clamped to `0`, so position `0` is still examined.) -/
def jsLastIndexOf (l : List Char) (c : Char) (n : Int) : Int :=
  match lastIdx (l.take (n.toNat + 1)) c with
  | some i => (i : Int)
  | none => -1

/-- JavaScript `String.prototype.slice(a, b)`: negative arguments count
from the end, both are clamped to `[0, length]`. -/
def jsSlice (l : List Char) (a b : Int) : List Char :=
  let len : Int := l.length
  let s := if a < 0 then max (len + a) 0 else min a len
  let e := if b < 0 then max (len + b) 0 else min b len
  (l.take e.toNat).drop s.toNat

/-- Result record of `getBraceContents`: the text between the braces and
its range. -/
structure BraceResult where
  value : List Char
  range : JsRange
deriving DecidableEq, Repr

/-- `getBraceContents(editor, point, context)` from the source.  The
buffer text fetched by `editor.getTextInBufferRange` at the cursor's row
is the context line, so the fetch is modelled as a slice of `line`. -/
def getBraceContents (point : Point) (line : List Char) : Option BraceResult :=
  let index := point.column
  let contentsStartIndex := jsLastIndexOf line '{' (index - 1)
  let minStartIndex := jsLastIndexOf line '}' (index - 1)
  let contentsEndIndex := jsIndexOf line '}' index
  let maxEndIndex := jsIndexOf line '{' index
  if contentsStartIndex = -1 ∨ contentsEndIndex = -1 then none
  else if contentsStartIndex < minStartIndex ∨
      (contentsEndIndex > maxEndIndex ∧ maxEndIndex ≠ -1) then none
  else some
    { value := (line.take contentsEndIndex.toNat).drop (contentsStartIndex + 1).toNat,
      range := ⟨⟨point.row, contentsStartIndex + 1⟩, ⟨point.row, contentsEndIndex⟩⟩ }

/-- Consume the literal keyword `k` from the front of `l`. -/
def dropKeyword : List Char → List Char → Option (List Char)
  | [], l => some l
  | _ :: _, [] => none
  | c :: cs, x :: xs => if x = c then dropKeyword cs xs else none

/-- After `(root|bib)` in the magic regex: consume `\s*=\s*` and return
the remaining text (the reported path). -/
def magicAfterCmd (cmd : String) (l : List Char) : Option (String × List Char) :=
  match l.dropWhile isJsWs with
  | '=' :: l8 => some (cmd, l8.dropWhile isJsWs)
  | _ => none

/-- The anchored prefix match of `/^\s*%\s*!T[eE]X\s+(root|bib)\s*=\s*/`:
returns the captured directive keyword and the text remaining after the
match.  (`root` and `bib` start with different letters, so the
alternation never needs backtracking.) -/
def magicParse (line : List Char) : Option (String × List Char) :=
  match line.dropWhile isJsWs with
  | '%' :: l2 =>
    match l2.dropWhile isJsWs with
    | '!' :: 'T' :: e :: 'X' :: l4 =>
      if e = 'e' ∨ e = 'E' then
        if (l4.takeWhile isJsWs).length = 0 then none
        else
          match dropKeyword "root".toList (l4.dropWhile isJsWs) with
          | some l6 => magicAfterCmd "root" l6
          | none =>
            match dropKeyword "bib".toList (l4.dropWhile isJsWs) with
            | some l6 => magicAfterCmd "bib" l6
            | none => none
      else none
    | _ => none
  | _ => none

/-- Result record of `isMagicFilePath`. -/
structure MagicResult where
  command : String
  range : JsRange
  path : List Char
deriving DecidableEq, Repr

/-- `isMagicFilePath(editor, point, context)` from the source.  `none`
models the JavaScript return value `false`. -/
def isMagicFilePath (point : Point) (ctx : Ctx) : Option MagicResult :=
  match magicParse ctx.line with
  | none => none
  | some (cmd, rest) =>
    let filePathStartIndex : Int := (ctx.line.length : Int) - rest.length
    if ctx.index < filePathStartIndex then none
    else some
      { command := cmd,
        range := ⟨⟨point.row, filePathStartIndex⟩, ⟨point.row, (ctx.line.length : Int)⟩⟩,
        path := rest }

/-- `[^\}]*$`: the rest of the input contains no closing brace. -/
def restNoBrace (l : List Char) : Bool :=
  l.all (fun c => c != '}')

/-- After the closing `]` of the optional bracket group in the file-path
regex: match `\s*\{[^\}]*$`. -/
def afterBracket (l : List Char) : Bool :=
  match l.dropWhile isJsWs with
  | '{' :: rest => restNoBrace rest
  | _ => false

/-- Backtracking for `\[.*?\]` followed by `\s*\{[^\}]*$`: the lazy `.*?`
tries each candidate `]` from left to right, and cannot expand across a
line terminator (`.` does not match those). -/
def tryCloseBracket : List Char → Bool
  | [] => false
  | c :: rest =>
    if c = ']' then (afterBracket rest || tryCloseBracket rest)
    else if isLineTerm c then false
    else tryCloseBracket rest

/-- The suffix `\s*(?:\[.*?\])?\s*\{[^\}]*$` of the file-path regex.
After the leading `\s*` the next character decides the optional group:
whitespace is never `[` or `{`, and skipping the group when the next
character is `[` fails at `\{`, so no further backtracking arises. -/
def matchTail (l : List Char) : Bool :=
  match l.dropWhile isJsWs with
  | '[' :: rest => tryCloseBracket rest
  | '{' :: rest => restNoBrace rest
  | _ => false

/-- First alternative of the capture group:
`inputminted\s*\{[^\}]*\}` followed by the regex tail.  The greedy
`[^\}]*` inside the group reaches exactly the first `}`; the capture
keeps the whole matched text including the brace group. -/
def altInputminted (l : List Char) : Option (List Char) :=
  match dropKeyword "inputminted".toList l with
  | some r1 =>
    let wsN := r1.takeWhile isJsWs
    (match dropKeyword ['{'] (r1.dropWhile isJsWs) with
     | some r3 =>
       let body := r3.takeWhile (fun c => c != '}')
       (match dropKeyword ['}'] (r3.dropWhile (fun c => c != '}')) with
        | some r5 =>
          if matchTail r5 then
            some ("inputminted".toList ++ wsN ++ '{' :: (body ++ ['}']))
          else none
        | none => none)
     | none => none)
  | none => none

/-- A plain keyword alternative of the capture group followed by the
regex tail. -/
def altKeyword (kw : String) (l : List Char) : Option (List Char) :=
  match dropKeyword kw.toList l with
  | some r => if matchTail r then some kw.toList else none
  | none => none

/-- The `include(?:only|graphics)?` alternative: after `include`, the
optional group tries `only`, then `graphics`, then nothing, each
followed by the regex tail. -/
def altInclude (l : List Char) : Option (List Char) :=
  match dropKeyword "include".toList l with
  | some r =>
    (match dropKeyword "only".toList r with
     | some r2 => if matchTail r2 then some "includeonly".toList else none
     | none => none) <|>
    (match dropKeyword "graphics".toList r with
     | some r2 => if matchTail r2 then some "includegraphics".toList else none
     | none => none) <|>
    (if matchTail r then some "include".toList else none)
  | none => none

/-- Try the capture-group alternation
`inputminted\s*\{[^\}]*\}|input|include(?:only|graphics)?|addbibresource`
at a position just after a `\`, each alternative followed by the regex
tail; alternatives are tried in source order and the first full match
wins.  Returns the text captured by group 1. -/
def matchCmdAt (l : List Char) : Option (List Char) :=
  altInputminted l <|> altKeyword "input" l <|> altInclude l <|>
    altKeyword "addbibresource" l

/-- Leftmost-match search of the unanchored file-path regex
`/\\(inputminted\s*\{[^\}]*\}|input|include(?:only|graphics)?|addbibresource)\s*(?:\[.*?\])?\s*\{[^\}]*$/`:
a match can only start at a `\`, and the first starting position with a
full match wins.  Returns `fileMatch[1]`. -/
def fileRegexSearch : List Char → Option (List Char)
  | [] => none
  | c :: rest =>
    if c = '\\' then
      match matchCmdAt rest with
      | some cap => some cap
      | none => fileRegexSearch rest
    else fileRegexSearch rest

/-- The lazy middle of `/^(\s*)(.*?)(\s*)$/` after the greedy leading
`(\s*)` has been consumed: try the empty middle first (so the rest must
be all `\s`), else consume one `.`-matchable character (anything but a
line terminator) and recurse.  `none` models a failed regex match. -/
def lazySplit : List Char → Option (List Char × List Char)
  | [] => some ([], [])
  | c :: rest =>
    if (c :: rest).all isJsWs then some ([], c :: rest)
    else if isLineTerm c then none
    else (lazySplit rest).map (fun p => (c :: p.1, p.2))

/-- The full match of `fileNameRegex = /^(\s*)(.*?)(\s*)$/` against `s`,
returning the three captured groups.  The greedy group 1 takes the
maximal whitespace run; shrinking it can never enable a match
(see `lazySplit_cons_ws_of_none` below), so no outer backtracking is
modelled. -/
def trimCaptures (s : List Char) : Option (List Char × List Char × List Char) :=
  (lazySplit (s.dropWhile isJsWs)).map
    (fun p => (s.takeWhile isJsWs, p.1, p.2))

/-- Result record of `isFilePath`. -/
structure PathResult where
  command : List Char
  range : JsRange
  path : List Char
deriving DecidableEq, Repr

/-- Outcome of `isFilePath`: a thrown `TypeError` (`err`, from
dereferencing a `null` match of `fileNameRegex`), the JavaScript return
value `false` (`noMatch`), or a structured result. -/
inductive FilePathOut where
  | err : FilePathOut
  | noMatch : FilePathOut
  | found : PathResult → FilePathOut
deriving DecidableEq, Repr

/-- The tail the source duplicates in its `input` and
`include`/`includeonly` branches: match `fileNameRegex` against the
argument segment spanning `[lo, hi)` of the line, trim, and require the
cursor inside the trimmed sub-span `[lo + leading, hi - trailing]`;
a failed regex match is the thrown `TypeError` (`err`). -/
def trimSpanResult (row index lo hi : Int) (seg cmd : List Char) : FilePathOut :=
  match trimCaptures seg with
  | none => .err
  | some (w1, mid, w3) =>
    if index < lo + (w1.length : Int) ∨ index > hi - (w3.length : Int) then .noMatch
    else .found ⟨cmd, ⟨⟨row, lo + (w1.length : Int)⟩, ⟨row, hi - (w3.length : Int)⟩⟩, mid⟩

/-- `isFilePath(editor, point, context)` from the source.  The `input`
branch trims `context.value` over `[startIndex, endIndex)`; the
`include`/`includeonly` branch first isolates the comma-delimited
section `[fileSectionStart, fileSectionEnd)` and trims the line slice
over it; `includegraphics` and the generic fallthrough return the
context's range and value verbatim. -/
def isFilePath (point : Point) (ctx : Ctx) : FilePathOut :=
  match fileRegexSearch (jsSlice ctx.line 0 ctx.index) with
  | none => .noMatch
  | some fileCommand =>
    if fileCommand = "input".toList then
      trimSpanResult point.row ctx.index ctx.startIndex ctx.endIndex ctx.value fileCommand
    else if fileCommand = "include".toList ∨ fileCommand = "includeonly".toList then
      let valueIndex := ctx.index - ctx.startIndex
      let a := jsLastIndexOf ctx.value ',' (valueIndex - 1)
      let b := jsIndexOf ctx.value ',' valueIndex
      let fileSectionStart :=
        if ctx.startIndex + a < ctx.startIndex then ctx.startIndex
        else ctx.startIndex + a + 1
      let fileSectionEnd :=
        if ctx.startIndex + b < ctx.startIndex then ctx.endIndex
        else ctx.startIndex + b
      if fileSectionEnd - fileSectionStart < 1 then .noMatch
      else trimSpanResult point.row ctx.index fileSectionStart fileSectionEnd
        (jsSlice ctx.line fileSectionStart fileSectionEnd) fileCommand
    else if fileCommand = "includegraphics".toList then
      .found ⟨fileCommand, ctx.range, ctx.value⟩
    else
      .found ⟨fileCommand, ctx.range, ctx.value⟩

/-- The suffix `\s*\{[^\}]*$` shared by the environment and reference
regexes. -/
def wsBraceTail (l : List Char) : Bool :=
  match l.dropWhile isJsWs with
  | '{' :: rest => restNoBrace rest
  | _ => false

/-- Backtracking for `\[.*?\]` immediately followed by `\{[^\}]*$`
(the package regex has no `\s*` between `]` and `{`). -/
def tryCloseBracketPkg : List Char → Bool
  | [] => false
  | c :: rest =>
    if c = ']' then
      (match rest with
       | '{' :: r2 => restNoBrace r2
       | _ => false) || tryCloseBracketPkg rest
    else if isLineTerm c then false
    else tryCloseBracketPkg rest

/-- The suffix `\s*(?:\[.*?\])?\{[^\}]*$` of the package regex. -/
def pkgTail (l : List Char) : Bool :=
  match l.dropWhile isJsWs with
  | '[' :: rest => tryCloseBracketPkg rest
  | '{' :: rest => restNoBrace rest
  | _ => false

/-- Leftmost-match search of
`/\\(?:usepackage|documentclass)\s*(?:\[.*?\])?\{[^\}]*$/`. -/
def pkgSearch : List Char → Bool
  | [] => false
  | c :: rest =>
    if c = '\\' then
      (match dropKeyword "usepackage".toList rest with
       | some r => pkgTail r
       | none => false) ||
      (match dropKeyword "documentclass".toList rest with
       | some r => pkgTail r
       | none => false) ||
      pkgSearch rest
    else pkgSearch rest

/-- `isPackageOrClass(editor, point, context)` from the source. -/
def isPackageOrClass (point : Point) (ctx : Ctx) : Bool :=
  if pkgSearch (jsSlice ctx.line 0 ctx.index) then true
  else ctx.scopes.contains "support.class.latex"

/-- Leftmost-match search of `/\\(begin|end)\s*\{[^\}]*$/`, returning the
captured keyword. -/
def envSearch : List Char → Option String
  | [] => none
  | c :: rest =>
    if c = '\\' then
      match dropKeyword "begin".toList rest with
      | some r => if wsBraceTail r then some "begin" else envSearch rest
      | none =>
        match dropKeyword "end".toList rest with
        | some r => if wsBraceTail r then some "end" else envSearch rest
        | none => envSearch rest
    else envSearch rest

/-- `isEnvDelim(editor, point, context)` from the source; `none` models
`false`. -/
def isEnvDelim (point : Point) (ctx : Ctx) : Option String :=
  envSearch (jsSlice ctx.line 0 ctx.index)

/-- Lower-case an ASCII letter, the character folding used by the `/i`
flag on the ASCII-only reference regex. -/
def lowerAscii (c : Char) : Char :=
  if 'A' ≤ c ∧ c ≤ 'Z' then Char.ofNat (c.toNat + 32) else c

/-- Consume keyword `k` (given lower-case) case-insensitively, returning
the original matched text and the rest. -/
def dropKeyCI : List Char → List Char → Option (List Char × List Char)
  | [], l => some ([], l)
  | _ :: _, [] => none
  | c :: cs, x :: xs =>
    if lowerAscii x = c then (dropKeyCI cs xs).map (fun p => (x :: p.1, p.2))
    else none

/-- After the command-name part of the reference regex: `(?:\*)?` (the
greedy optional star, still inside the capture group) followed by
`\s*\{[^\}]*$`; returns the captured star text. -/
def refStarTail (l : List Char) : Option (List Char) :=
  match l with
  | '*' :: r =>
    if wsBraceTail r then some ['*']
    else if wsBraceTail l then some [] else none
  | _ => if wsBraceTail l then some [] else none

/-- One alternative of `(?:auto|name|page|eq|cpage|c|labelc)?` followed by
`ref(?:\*)?\s*\{[^\}]*$`, case-insensitively; returns the capture. -/
def refAlt (kw : String) (l : List Char) : Option (List Char) :=
  match dropKeyCI kw.toList l with
  | some (o1, r1) =>
    match dropKeyCI "ref".toList r1 with
    | some (o2, r2) =>
      match refStarTail r2 with
      | some st => some (o1 ++ o2 ++ st)
      | none => none
    | none => none
  | none => none

/-- The capture-group match of
`((?:auto|name|page|eq|cpage|c|labelc)?ref(?:\*)?)` with its tail, at a
position just after a `\`; alternatives in source order, the empty
optional prefix last. -/
def matchRefAt (l : List Char) : Option (List Char) :=
  refAlt "auto" l <|> refAlt "name" l <|> refAlt "page" l <|> refAlt "eq" l <|>
  refAlt "cpage" l <|> refAlt "c" l <|> refAlt "labelc" l <|> refAlt "" l

/-- Leftmost-match search of
`/\\((?:auto|name|page|eq|cpage|c|labelc)?ref(?:\*)?)\s*\{[^\}]*$/i`. -/
def refSearch : List Char → Option (List Char)
  | [] => none
  | c :: rest =>
    if c = '\\' then
      match matchRefAt rest with
      | some cap => some cap
      | none => refSearch rest
    else refSearch rest

/-- Outcome of `isRef`: `false`, a matched command name, or the
`"UNKNOWN REF COMMAND"` sentinel from the scope fallback. -/
inductive RefOut where
  | noMatch : RefOut
  | cmd : List Char → RefOut
  | unknown : RefOut
deriving DecidableEq, Repr

/-- `isRef(editor, point, context)` from the source.  Note the slice uses
`point.column`, not `context.index`. -/
def isRef (point : Point) (ctx : Ctx) : RefOut :=
  match refSearch (jsSlice ctx.line 0 point.column) with
  | some cap => .cmd cap
  | none =>
    if ctx.scopes.contains "meta.reference.latex" then .unknown else .noMatch

/-- `isCitation(editor, point, context)` from the source: the regex path
is commented out, only the scope check remains; `some` is the
`"UNKNOWN CITE COMMAND"` sentinel. -/
def isCitation (point : Point) (ctx : Ctx) : Option String :=
  if ctx.scopes.contains "constant.other.reference.citation.latex" then
    some "UNKNOWN CITE COMMAND"
  else none

/-- Spec-side definition ("leading/trailing whitespace is trimmed"):
drop whitespace at both ends of a string. -/
def wsTrim (s : List Char) : List Char :=
  ((s.dropWhile isJsWs).reverse.dropWhile isJsWs).reverse

/-- Length of the leading whitespace run. -/
def leadWsLen (s : List Char) : Nat :=
  (s.takeWhile isJsWs).length

/-- Length of the trailing whitespace run that remains after the leading
run is removed. -/
def trailWsLen (s : List Char) : Nat :=
  ((s.dropWhile isJsWs).reverse.takeWhile isJsWs).length

/-- Spec-side definition of the comma-delimited segment of the brace
argument containing the cursor: bounded below by the nearest comma at or
before the cursor (the last comma among the first `vi` characters) and
above by the nearest comma at or after it, defaulting to the argument
boundaries when absent.  Returns the segment's start and end offsets
within the argument. -/
def segBounds (value : List Char) (vi : Nat) : Nat × Nat :=
  (match lastIdx (value.take vi) ',' with
   | some a => a + 1
   | none => 0,
   match firstIdx (value.drop vi) ',' with
   | some b => vi + b
   | none => value.length)

/-- Spec-side: the comma-delimited segment of the brace argument that
contains the cursor. -/
def includeSeg (value : List Char) (vi : Nat) : List Char :=
  (value.take (segBounds value vi).2).drop (segBounds value vi).1

/-- Spec-side: start of the trimmed sub-span, as an absolute column. -/
def includeNs (sI : Int) (value : List Char) (vi : Nat) : Int :=
  sI + ((segBounds value vi).1 : Int) + (leadWsLen (includeSeg value vi) : Int)

/-- Spec-side: end of the trimmed sub-span, as an absolute column. -/
def includeNe (sI : Int) (value : List Char) (vi : Nat) : Int :=
  sI + ((segBounds value vi).2 : Int) - (trailWsLen (includeSeg value vi) : Int)


/-! ## Characterizations of the index primitives -/

theorem firstIdx_eq_none_iff {l : List Char} {c : Char} :
    firstIdx l c = none ↔ ∀ i : Nat, l[i]? ≠ some c := by
  induction l with
  | nil => simp [firstIdx]
  | cons x xs ih =>
    simp only [firstIdx]
    by_cases hx : x = c
    · simp only [if_pos hx]
      constructor
      · intro h; cases h
      · intro h; exact absurd (by simp [hx] : (x :: xs)[0]? = some c) (h 0)
    · simp only [if_neg hx, Option.map_eq_none', ih]
      constructor
      · intro h i
        cases i with
        | zero => simp [hx]
        | succ n => simpa using h n
      · intro h i
        simpa using h (i + 1)

theorem firstIdx_eq_some_iff {l : List Char} {c : Char} {i : Nat} :
    firstIdx l c = some i ↔ l[i]? = some c ∧ ∀ j : Nat, j < i → l[j]? ≠ some c := by
  induction l generalizing i with
  | nil => simp [firstIdx]
  | cons x xs ih =>
    simp only [firstIdx]
    by_cases hx : x = c
    · simp only [if_pos hx]
      constructor
      · intro h
        obtain rfl : i = 0 := by simpa using h.symm
        exact ⟨by simp [hx], by omega⟩
      · rintro ⟨h1, h2⟩
        cases i with
        | zero => rfl
        | succ n => exact absurd (by simp [hx] : (x :: xs)[0]? = some c) (h2 0 (by omega))
    · simp only [if_neg hx]
      cases i with
      | zero =>
        simp only [List.getElem?_cons_zero]
        constructor
        · intro h
          obtain ⟨a, _, ha⟩ := Option.map_eq_some'.mp h
          omega
        · rintro ⟨h1, _⟩
          exact absurd (by simpa using h1) hx
      | succ n =>
        constructor
        · intro h
          obtain ⟨a, ha, han⟩ := Option.map_eq_some'.mp h
          obtain rfl : a = n := by omega
          obtain ⟨h1, h2⟩ := ih.mp ha
          refine ⟨by simpa using h1, ?_⟩
          intro j hj
          cases j with
          | zero => simp [hx]
          | succ m => simpa using h2 m (by omega)
        · rintro ⟨h1, h2⟩
          refine Option.map_eq_some'.mpr ⟨n, ih.mpr ⟨by simpa using h1, ?_⟩, rfl⟩
          intro j hj
          simpa using h2 (j + 1) (by omega)

theorem lastIdx_none_no_occ {l : List Char} {c : Char} (h : lastIdx l c = none) :
    ∀ i : Nat, l[i]? ≠ some c := by
  induction l with
  | nil => intro i; simp
  | cons x xs ih =>
    intro i
    simp only [lastIdx] at h
    cases hx : lastIdx xs c with
    | some k => rw [hx] at h; cases h
    | none =>
      rw [hx] at h
      by_cases hxc : x = c
      · rw [if_pos hxc] at h; cases h
      · cases i with
        | zero => simp [hxc]
        | succ n => simpa using ih hx n

theorem lastIdx_eq_some_iff {l : List Char} {c : Char} {i : Nat} :
    lastIdx l c = some i ↔ l[i]? = some c ∧ ∀ j : Nat, i < j → l[j]? ≠ some c := by
  induction l generalizing i with
  | nil => simp [lastIdx]
  | cons x xs ih =>
    simp only [lastIdx]
    cases h : lastIdx xs c with
    | some k =>
      constructor
      · intro hc
        obtain rfl : i = k + 1 := by simpa using hc.symm
        obtain ⟨h1, h2⟩ := ih.mp h
        refine ⟨by simpa using h1, ?_⟩
        intro j hj
        cases j with
        | zero => omega
        | succ m => simpa using h2 m (by omega)
      · rintro ⟨h1, h2⟩
        cases i with
        | zero =>
          exact absurd (by simpa using (ih.mp h).1 : (x :: xs)[k + 1]? = some c)
            (h2 (k + 1) (by omega))
        | succ n =>
          have hx : xs[n]? = some c := by simpa using h1
          have hmax : ∀ j : Nat, n < j → xs[j]? ≠ some c := by
            intro j hj; simpa using h2 (j + 1) (by omega)
          have hkn := ih.mpr ⟨hx, hmax⟩
          rw [h] at hkn
          simpa using hkn
    | none =>
      by_cases hx : x = c
      · simp only [if_pos hx]
        constructor
        · intro hc
          obtain rfl : i = 0 := by simpa using hc.symm
          refine ⟨by simp [hx], ?_⟩
          intro j hj
          cases j with
          | zero => omega
          | succ m => simpa using lastIdx_none_no_occ h m
        · rintro ⟨h1, h2⟩
          cases i with
          | zero => rfl
          | succ n => exact absurd (by simpa using h1) (lastIdx_none_no_occ h n)
      · simp only [if_neg hx]
        constructor
        · intro hc; cases hc
        · rintro ⟨h1, _⟩
          cases i with
          | zero => exact absurd (by simpa using h1) hx
          | succ n => exact absurd (by simpa using h1) (lastIdx_none_no_occ h n)

theorem getElem?_take_eq_some_iff {l : List Char} {m i : Nat} {c : Char} :
    (l.take m)[i]? = some c ↔ i < m ∧ l[i]? = some c := by
  by_cases h : i < m
  · rw [List.getElem?_take_of_lt h]
    simp [h]
  · rw [List.getElem?_take_eq_none (by omega)]
    constructor
    · intro hc; cases hc
    · rintro ⟨h1, _⟩; omega

theorem jsIndexOf_eq_neg_one_iff {l : List Char} {c : Char} {n : Int} :
    jsIndexOf l c n = -1 ↔ ∀ j : Nat, n.toNat ≤ j → l[j]? ≠ some c := by
  unfold jsIndexOf
  cases h : firstIdx (l.drop n.toNat) c with
  | some i =>
    dsimp only
    have h1 := (firstIdx_eq_some_iff.mp h).1
    rw [List.getElem?_drop] at h1
    constructor
    · intro hc; omega
    · intro hall
      exact absurd h1 (hall (n.toNat + i) (by omega))
  | none =>
    dsimp only
    constructor
    · intro _ j hj hocc
      have hfi := firstIdx_eq_none_iff.mp h (j - n.toNat)
      rw [List.getElem?_drop] at hfi
      have heq : n.toNat + (j - n.toNat) = j := by omega
      rw [heq] at hfi
      exact hfi hocc
    · intro _; rfl

theorem jsIndexOf_eq_coe_iff {l : List Char} {c : Char} {n : Int} {j : Nat} :
    jsIndexOf l c n = (j : Int) ↔
      n.toNat ≤ j ∧ l[j]? = some c ∧ ∀ k : Nat, n.toNat ≤ k → k < j → l[k]? ≠ some c := by
  unfold jsIndexOf
  cases h : firstIdx (l.drop n.toNat) c with
  | some i =>
    dsimp only
    obtain ⟨h1, h2⟩ := firstIdx_eq_some_iff.mp h
    rw [List.getElem?_drop] at h1
    constructor
    · intro hc
      obtain rfl : j = n.toNat + i := by omega
      refine ⟨by omega, h1, ?_⟩
      intro k hk1 hk2
      have hmin := h2 (k - n.toNat) (by omega)
      rw [List.getElem?_drop] at hmin
      have heq : n.toNat + (k - n.toNat) = k := by omega
      rwa [heq] at hmin
    · rintro ⟨hj1, hj2, hj3⟩
      have heqj : n.toNat + i = j := by
        rcases Nat.lt_trichotomy (n.toNat + i) j with hlt | heq | hgt
        · exact absurd h1 (hj3 _ (by omega) hlt)
        · exact heq
        · have hmin := h2 (j - n.toNat) (by omega)
          rw [List.getElem?_drop] at hmin
          have heq2 : n.toNat + (j - n.toNat) = j := by omega
          rw [heq2] at hmin
          exact absurd hj2 hmin
      omega
  | none =>
    dsimp only
    constructor
    · intro hc; omega
    · rintro ⟨hj1, hj2, _⟩
      have hfi := firstIdx_eq_none_iff.mp h (j - n.toNat)
      rw [List.getElem?_drop] at hfi
      have heq : n.toNat + (j - n.toNat) = j := by omega
      rw [heq] at hfi
      exact absurd hj2 hfi

theorem jsLastIndexOf_eq_neg_one_iff {l : List Char} {c : Char} {n : Int} :
    jsLastIndexOf l c n = -1 ↔ ∀ j : Nat, j ≤ n.toNat → l[j]? ≠ some c := by
  unfold jsLastIndexOf
  cases h : lastIdx (l.take (n.toNat + 1)) c with
  | some i =>
    dsimp only
    have h1 := (lastIdx_eq_some_iff.mp h).1
    rw [getElem?_take_eq_some_iff] at h1
    constructor
    · intro hc; omega
    · intro hall
      exact absurd h1.2 (hall i (by omega))
  | none =>
    dsimp only
    refine ⟨fun _ j hj hocc => ?_, fun _ => rfl⟩
    exact lastIdx_none_no_occ h j (getElem?_take_eq_some_iff.mpr ⟨by omega, hocc⟩)

theorem jsLastIndexOf_eq_coe_iff {l : List Char} {c : Char} {n : Int} {i : Nat} :
    jsLastIndexOf l c n = (i : Int) ↔
      i ≤ n.toNat ∧ l[i]? = some c ∧ ∀ j : Nat, i < j → j ≤ n.toNat → l[j]? ≠ some c := by
  unfold jsLastIndexOf
  cases h : lastIdx (l.take (n.toNat + 1)) c with
  | some k =>
    dsimp only
    obtain ⟨h1, h2⟩ := lastIdx_eq_some_iff.mp h
    rw [getElem?_take_eq_some_iff] at h1
    constructor
    · intro hc
      obtain rfl : i = k := by omega
      refine ⟨by omega, h1.2, ?_⟩
      intro j hj1 hj2 hocc
      exact h2 j hj1 (getElem?_take_eq_some_iff.mpr ⟨by omega, hocc⟩)
    · rintro ⟨hi1, hi2, hi3⟩
      have heqk : k = i := by
        rcases Nat.lt_trichotomy k i with hlt | heq | hgt
        · exact absurd (getElem?_take_eq_some_iff.mpr ⟨by omega, hi2⟩) (h2 i hlt)
        · exact heq
        · exact absurd h1.2 (hi3 k hgt (by omega))
      omega
  | none =>
    dsimp only
    constructor
    · intro hc; omega
    · rintro ⟨hi1, hi2, _⟩
      exact absurd (getElem?_take_eq_some_iff.mpr ⟨by omega, hi2⟩)
        (lastIdx_none_no_occ h i)

theorem jsIndexOf_cases (l : List Char) (c : Char) (n : Int) :
    jsIndexOf l c n = -1 ∨ ∃ j : Nat, jsIndexOf l c n = (j : Int) := by
  unfold jsIndexOf
  cases firstIdx (l.drop n.toNat) c with
  | some i => exact Or.inr ⟨n.toNat + i, rfl⟩
  | none => exact Or.inl rfl

theorem jsLastIndexOf_cases (l : List Char) (c : Char) (n : Int) :
    jsLastIndexOf l c n = -1 ∨ ∃ i : Nat, jsLastIndexOf l c n = (i : Int) := by
  unfold jsLastIndexOf
  cases lastIdx (l.take (n.toNat + 1)) c with
  | some i => exact Or.inr ⟨i, rfl⟩
  | none => exact Or.inl rfl

/-! ## The brace extractor: master characterization -/

theorem getBraceContents_nonpos (point : Point) (s : List Char)
    (h : point.column ≤ 0) : getBraceContents point s = none := by
  have h1 : (point.column - 1).toNat = 0 := by omega
  rcases jsLastIndexOf_cases s '{' (point.column - 1) with hcs | ⟨i, hcs⟩
  · simp [getBraceContents, hcs]
  · obtain ⟨hi1, hi2, _⟩ := jsLastIndexOf_eq_coe_iff.mp hcs
    rw [h1] at hi1
    obtain rfl : i = 0 := by omega
    rcases jsIndexOf_cases s '}' point.column with hce | ⟨j, hce⟩
    · simp [getBraceContents, hcs, hce]
    · obtain ⟨_, hj2, _⟩ := jsIndexOf_eq_coe_iff.mp hce
      have hj0 : j ≠ 0 := by
        intro h0
        rw [h0, hi2] at hj2
        simp at hj2
      have hme : jsIndexOf s '{' point.column = ((0 : Nat) : Int) := by
        refine jsIndexOf_eq_coe_iff.mpr ⟨by omega, hi2, ?_⟩
        intro k _ hk
        omega
      simp only [getBraceContents]
      rw [hcs, hce, hme]
      rw [if_neg (by omega), if_pos (Or.inr ⟨by omega, by omega⟩)]

theorem getBraceContents_some_iff {row : Int} {s : List Char} {col : Nat}
    {r : BraceResult} :
    getBraceContents ⟨row, (col : Int)⟩ s = some r ↔
      ∃ i j : Nat, i < col ∧ col ≤ j ∧ s[i]? = some '{' ∧ s[j]? = some '}' ∧
        (∀ k : Nat, i < k → k < j → s[k]? ≠ some '{' ∧ s[k]? ≠ some '}') ∧
        r = ⟨(s.take j).drop (i + 1), ⟨⟨row, (i : Int) + 1⟩, ⟨row, (j : Int)⟩⟩⟩ := by
  rcases Nat.eq_zero_or_pos col with rfl | hpos
  · rw [getBraceContents_nonpos ⟨row, ((0 : Nat) : Int)⟩ s (by simp)]
    constructor
    · intro h; cases h
    · rintro ⟨i, j, hi, _⟩; omega
  · have htn : (((col : Int)) - 1).toNat = col - 1 := by omega
    have htn2 : ((col : Int)).toNat = col := by omega
    constructor
    · intro h
      rcases jsLastIndexOf_cases s '{' ((col : Int) - 1) with hcs | ⟨i, hcs⟩
      · simp [getBraceContents, hcs] at h
      rcases jsIndexOf_cases s '}' (col : Int) with hce | ⟨j, hce⟩
      · simp [getBraceContents, hcs, hce] at h
      obtain ⟨hi1, hi2, hi3⟩ := jsLastIndexOf_eq_coe_iff.mp hcs
      rw [htn] at hi1 hi3
      obtain ⟨hj1, hj2, hj3⟩ := jsIndexOf_eq_coe_iff.mp hce
      rw [htn2] at hj1 hj3
      simp only [getBraceContents] at h
      rw [hcs, hce, if_neg (by omega)] at h
      have hms : ∀ m : Nat, jsLastIndexOf s '}' ((col : Int) - 1) = (m : Int) → m ≤ i := by
        intro m hm
        by_contra him
        rw [hm, if_pos (Or.inl (by omega))] at h
        cases h
      have hme : ∀ m : Nat, jsIndexOf s '{' (col : Int) = (m : Int) → j ≤ m := by
        intro m hm
        by_contra hjm
        rw [hm, if_pos (Or.inr ⟨by omega, by omega⟩)] at h
        cases h
      have hguard : ¬ ((i : Int) < jsLastIndexOf s '}' ((col : Int) - 1) ∨
          ((j : Int) > jsIndexOf s '{' (col : Int) ∧
            jsIndexOf s '{' (col : Int) ≠ -1)) := by
        rintro (hbad | ⟨hbad1, hbad2⟩)
        · rcases jsLastIndexOf_cases s '}' ((col : Int) - 1) with hm | ⟨m, hm⟩
          · rw [hm] at hbad; omega
          · have := hms m hm; rw [hm] at hbad; omega
        · rcases jsIndexOf_cases s '{' (col : Int) with hm | ⟨m, hm⟩
          · exact hbad2 hm
          · have := hme m hm; rw [hm] at hbad1; omega
      rw [if_neg hguard] at h
      refine ⟨i, j, by omega, by omega, hi2, hj2, ?_, ?_⟩
      · intro k hik hkj
        by_cases hkc : k < col
        · refine ⟨hi3 k hik (by omega), ?_⟩
          intro hocc
          rcases jsLastIndexOf_cases s '}' ((col : Int) - 1) with hm | ⟨m, hm⟩
          · exact jsLastIndexOf_eq_neg_one_iff.mp hm k (by omega) hocc
          · obtain ⟨_, _, hm3⟩ := jsLastIndexOf_eq_coe_iff.mp hm
            rw [htn] at hm3
            have hmi := hms m hm
            exact hm3 k (by omega) (by omega) hocc
        · refine ⟨?_, hj3 k (by omega) hkj⟩
          intro hocc
          rcases jsIndexOf_cases s '{' (col : Int) with hm | ⟨m, hm⟩
          · exact jsIndexOf_eq_neg_one_iff.mp hm k (by omega) hocc
          · obtain ⟨_, _, hm3⟩ := jsIndexOf_eq_coe_iff.mp hm
            rw [htn2] at hm3
            have hmj := hme m hm
            exact hm3 k (by omega) (by omega) hocc
      · have h' := Option.some_inj.mp h
        have e1 : ((i : Int) + 1).toNat = i + 1 := by omega
        have e2 : ((j : Int)).toNat = j := by omega
        rw [e1, e2] at h'
        exact h'.symm
    · rintro ⟨i, j, hicol, hcolj, hi, hj, hint, rfl⟩
      have hcs : jsLastIndexOf s '{' ((col : Int) - 1) = (i : Int) := by
        refine jsLastIndexOf_eq_coe_iff.mpr ⟨by omega, hi, ?_⟩
        intro k hik hk
        rw [htn] at hk
        exact (hint k hik (by omega)).1
      have hce : jsIndexOf s '}' (col : Int) = (j : Int) := by
        refine jsIndexOf_eq_coe_iff.mpr ⟨by omega, hj, ?_⟩
        intro k hk1 hk2
        rw [htn2] at hk1
        exact (hint k (by omega) hk2).2
      have hguard2 : ¬ ((i : Int) < jsLastIndexOf s '}' ((col : Int) - 1) ∨
          ((j : Int) > jsIndexOf s '{' (col : Int) ∧
            jsIndexOf s '{' (col : Int) ≠ -1)) := by
        rintro (hbad | ⟨hbad1, hbad2⟩)
        · rcases jsLastIndexOf_cases s '}' ((col : Int) - 1) with hm | ⟨m, hm⟩
          · rw [hm] at hbad; omega
          · rw [hm] at hbad
            obtain ⟨hm1, hm2, _⟩ := jsLastIndexOf_eq_coe_iff.mp hm
            rw [htn] at hm1
            have him : i < m := by exact_mod_cast hbad
            exact (hint m him (by omega)).2 hm2
        · rcases jsIndexOf_cases s '{' (col : Int) with hm | ⟨m, hm⟩
          · exact hbad2 hm
          · rw [hm] at hbad1
            obtain ⟨hm1, hm2, _⟩ := jsIndexOf_eq_coe_iff.mp hm
            rw [htn2] at hm1
            have hmj : m < j := by exact_mod_cast hbad1
            exact (hint m (by omega) hmj).1 hm2
      simp only [getBraceContents]
      rw [hcs, hce]
      rw [if_neg (by omega), if_neg hguard2]
      have e1 : ((i : Int) + 1).toNat = i + 1 := by omega
      have e2 : ((j : Int)).toNat = j := by omega
      rw [e1, e2]

/-! ## Claims on the brace extractor -/

/-- C9: for every line, `getBraceContents` with the cursor at column 0
returns `null` — no brace pair can enclose a cursor at the very start of
a line, including when the line's first character is `{`: the backward
search from offset `-1` is clamped to index 0 and can find that `{`, but
the forward search then also finds it and the guard comparing the right
`}` against the next `{` rejects the match. -/
theorem getBraceContents_column_zero (row : Int) (s : List Char) :
    getBraceContents ⟨row, 0⟩ s = none :=
  getBraceContents_nonpos ⟨row, 0⟩ s (le_refl 0)

/-- C1: `getBraceContents` returns `null` exactly when no `{` is found
left of the cursor, or no `}` is found at or right of the cursor, or the
nearest left `{` lies before a `}` also found to the left, or the
nearest right `}` lies after a `{` also found to the right.  In
particular a line without braces yields `null`, and on `"{}{}"` with the
cursor between the groups it yields `null`. -/
theorem getBraceContents_none_iff (row : Int) (s : List Char) (col : Nat) :
    (getBraceContents ⟨row, (col : Int)⟩ s = none ↔
      (¬ ∃ i : Nat, i < col ∧ s[i]? = some '{') ∨
      (¬ ∃ j : Nat, col ≤ j ∧ s[j]? = some '}') ∨
      (∃ i j : Nat, i < col ∧ s[i]? = some '{' ∧
        (∀ k : Nat, k < col → s[k]? = some '{' → k ≤ i) ∧
        i < j ∧ j < col ∧ s[j]? = some '}') ∨
      (∃ j k : Nat, col ≤ j ∧ s[j]? = some '}' ∧
        (∀ m : Nat, col ≤ m → s[m]? = some '}' → j ≤ m) ∧
        col ≤ k ∧ k < j ∧ s[k]? = some '{')) ∧
    ((∀ c ∈ s, c ≠ '{' ∧ c ≠ '}') → getBraceContents ⟨row, (col : Int)⟩ s = none) ∧
    getBraceContents ⟨0, 2⟩ ['{', '}', '{', '}'] = none := by
  have hmain : getBraceContents ⟨row, (col : Int)⟩ s = none ↔
      (¬ ∃ i : Nat, i < col ∧ s[i]? = some '{') ∨
      (¬ ∃ j : Nat, col ≤ j ∧ s[j]? = some '}') ∨
      (∃ i j : Nat, i < col ∧ s[i]? = some '{' ∧
        (∀ k : Nat, k < col → s[k]? = some '{' → k ≤ i) ∧
        i < j ∧ j < col ∧ s[j]? = some '}') ∨
      (∃ j k : Nat, col ≤ j ∧ s[j]? = some '}' ∧
        (∀ m : Nat, col ≤ m → s[m]? = some '}' → j ≤ m) ∧
        col ≤ k ∧ k < j ∧ s[k]? = some '{') := by
    constructor
    · intro h
      by_cases h1 : ∃ i : Nat, i < col ∧ s[i]? = some '{'
      case neg => exact Or.inl h1
      by_cases h2 : ∃ j : Nat, col ≤ j ∧ s[j]? = some '}'
      case neg => exact Or.inr (Or.inl h2)
      obtain ⟨i0, hi0a, hi0b⟩ := h1
      obtain ⟨j0, hj0a, hj0b⟩ := h2
      -- the nearest left `{`
      rcases hcase : lastIdx (s.take col) '{' with _ | i
      · exact absurd (getElem?_take_eq_some_iff.mpr ⟨hi0a, hi0b⟩)
          (lastIdx_none_no_occ hcase i0)
      obtain ⟨hia, hib⟩ := lastIdx_eq_some_iff.mp hcase
      rw [getElem?_take_eq_some_iff] at hia
      have hmax : ∀ k : Nat, k < col → s[k]? = some '{' → k ≤ i := by
        intro k hk hocc
        by_contra hki
        exact hib k (by omega) (getElem?_take_eq_some_iff.mpr ⟨hk, hocc⟩)
      -- the nearest right `}`
      rcases hcasej : firstIdx (s.drop col) '}' with _ | j'
      · have hno := firstIdx_eq_none_iff.mp hcasej (j0 - col)
        rw [List.getElem?_drop] at hno
        have heq : col + (j0 - col) = j0 := by omega
        rw [heq] at hno
        exact absurd hj0b hno
      obtain ⟨hja, hjb⟩ := firstIdx_eq_some_iff.mp hcasej
      rw [List.getElem?_drop] at hja
      have hmin : ∀ m : Nat, col ≤ m → s[m]? = some '}' → col + j' ≤ m := by
        intro m hm hocc
        by_contra hmj
        have hlow := hjb (m - col) (by omega)
        rw [List.getElem?_drop] at hlow
        have heq : col + (m - col) = m := by omega
        rw [heq] at hlow
        exact hlow hocc
      by_cases h3 : ∃ jj : Nat, i < jj ∧ jj < col ∧ s[jj]? = some '}'
      · obtain ⟨jj, hjj1, hjj2, hjj3⟩ := h3
        exact Or.inr (Or.inr (Or.inl ⟨i, jj, hia.1, hia.2, hmax, hjj1, hjj2, hjj3⟩))
      by_cases h4 : ∃ kk : Nat, col ≤ kk ∧ kk < col + j' ∧ s[kk]? = some '{'
      · obtain ⟨kk, hkk1, hkk2, hkk3⟩ := h4
        exact Or.inr (Or.inr (Or.inr ⟨col + j', kk, by omega, hja, hmin, hkk1, hkk2, hkk3⟩))
      exfalso
      have hint : ∀ k : Nat, i < k → k < col + j' →
          s[k]? ≠ some '{' ∧ s[k]? ≠ some '}' := by
        intro k hik hkj
        by_cases hkc : k < col
        · exact ⟨fun hocc => absurd (hmax k hkc hocc) (by omega),
            fun hocc => h3 ⟨k, hik, hkc, hocc⟩⟩
        · exact ⟨fun hocc => h4 ⟨k, by omega, hkj, hocc⟩,
            fun hocc => absurd (hmin k (by omega) hocc) (by omega)⟩
      have hsome := (@getBraceContents_some_iff row s col
          ⟨(s.take (col + j')).drop (i + 1),
            ⟨⟨row, (i : Int) + 1⟩, ⟨row, ((col + j' : Nat) : Int)⟩⟩⟩).mpr
        ⟨i, col + j', hia.1, by omega, hia.2, hja, hint, rfl⟩
      rw [h] at hsome
      cases hsome
    · intro hRHS
      by_contra hne
      obtain ⟨r, hr⟩ := Option.ne_none_iff_exists'.mp hne
      obtain ⟨i, j, hti, htj, htoi, htoj, htint, _⟩ := getBraceContents_some_iff.mp hr
      rcases hRHS with h1 | h2 | ⟨i0, j0, ha1, ha2, ha3, ha4, ha5, ha6⟩ |
        ⟨j0, k0, hb1, hb2, hb3, hb4, hb5, hb6⟩
      · exact h1 ⟨i, hti, htoi⟩
      · exact h2 ⟨j, htj, htoj⟩
      · have hii0 : i ≤ i0 := ha3 i hti htoi
        exact (htint j0 (by omega) (by omega)).2 ha6
      · have hj0j : j0 ≤ j := hb3 j htj htoj
        exact (htint k0 (by omega) (by omega)).1 hb6
  refine ⟨hmain, ?_, by decide⟩
  intro hnb
  refine hmain.mpr (Or.inl ?_)
  rintro ⟨i, _, hocc⟩
  exact (hnb '{' (List.getElem?_mem hocc)).1 rfl

/-- C2: whenever `getBraceContents` succeeds it returns the text strictly
between the innermost enclosing `{` and `}` together with its span; the
span excludes both braces (its start is one past the `{` index, its end
is the `}` index).  On `"\cite{abc}"` with the cursor inside `abc` the
value is `"abc"` spanning exactly those three characters. -/
theorem getBraceContents_success_spec :
    (∀ (row : Int) (s : List Char) (col : Nat) (r : BraceResult),
      getBraceContents ⟨row, (col : Int)⟩ s = some r →
      ∃ i j : Nat, i < col ∧ col ≤ j ∧ s[i]? = some '{' ∧ s[j]? = some '}' ∧
        (∀ k : Nat, i < k → k < col → s[k]? ≠ some '{') ∧
        (∀ k : Nat, col ≤ k → k < j → s[k]? ≠ some '}') ∧
        r.range = ⟨⟨row, (i : Int) + 1⟩, ⟨row, (j : Int)⟩⟩ ∧
        r.value = (s.take j).drop (i + 1)) ∧
    getBraceContents ⟨0, 7⟩ ("\\cite".toList ++ '{' :: "abc".toList ++ ['}']) =
      some ⟨"abc".toList, ⟨⟨0, 6⟩, ⟨0, 9⟩⟩⟩ := by
  constructor
  · intro row s col r h
    obtain ⟨i, j, h1, h2, h3, h4, h5, rfl⟩ := getBraceContents_some_iff.mp h
    exact ⟨i, j, h1, h2, h3, h4,
      fun k hik hkc => (h5 k hik (by omega)).1,
      fun k hck hkj => (h5 k (by omega) hkj).2, rfl, rfl⟩
  · decide

theorem getBraceContents_success_spec_witness :
    ∃ i j : Nat, i < 7 ∧ 7 ≤ j ∧
      ("\\cite".toList ++ '{' :: "abc".toList ++ ['}'])[i]? = some '{' ∧
      ("\\cite".toList ++ '{' :: "abc".toList ++ ['}'])[j]? = some '}' := by
  obtain ⟨i, j, h1, h2, h3, h4, _⟩ := getBraceContents_success_spec.1 0
    ("\\cite".toList ++ '{' :: "abc".toList ++ ['}']) 7
    ⟨"abc".toList, ⟨⟨0, 6⟩, ⟨0, 9⟩⟩⟩ (by decide)
  exact ⟨i, j, h1, h2, h3, h4⟩

/-- C3: a cursor exactly at a `{` is treated as left of it (outside: that
`{` is never the opening delimiter of the returned pair), while a cursor
exactly at a `}` is treated as left of it (inside: that `}` serves as the
closing delimiter).  On `"{abc}"` column 4 matches with value `"abc"`,
while column 0 does not match. -/
theorem getBraceContents_cursor_at_brace :
    (∀ (row : Int) (s : List Char) (col : Nat) (r : BraceResult),
        s[col]? = some '{' → getBraceContents ⟨row, (col : Int)⟩ s = some r →
        r.range.start.column ≠ (col : Int) + 1) ∧
    (∀ (row : Int) (s : List Char) (col : Nat) (r : BraceResult),
        s[col]? = some '}' → getBraceContents ⟨row, (col : Int)⟩ s = some r →
        r.range.stop.column = (col : Int)) ∧
    getBraceContents ⟨0, 4⟩ ('{' :: "abc".toList ++ ['}']) =
      some ⟨"abc".toList, ⟨⟨0, 1⟩, ⟨0, 4⟩⟩⟩ ∧
    getBraceContents ⟨0, 0⟩ ('{' :: "abc".toList ++ ['}']) = none := by
  refine ⟨?_, ?_, by decide, by decide⟩
  · intro row s col r hc h
    obtain ⟨i, j, h1, _, _, _, _, rfl⟩ := getBraceContents_some_iff.mp h
    show ((i : Int) + 1) ≠ (col : Int) + 1
    omega
  · intro row s col r hc h
    obtain ⟨i, j, h1, h2, _, _, h5, rfl⟩ := getBraceContents_some_iff.mp h
    have hjc : j = col := by
      by_contra hne
      exact (h5 col (by omega) (by omega)).2 hc
    show ((j : Int)) = (col : Int)
    omega

theorem getBraceContents_cursor_at_brace_witness :
    ('{' :: "abc".toList ++ ['}'])[4]? = some '}' ∧
    (⟨"abc".toList, ⟨⟨0, 1⟩, ⟨0, 4⟩⟩⟩ : BraceResult).range.stop.column = ((4 : Nat) : Int) :=
  ⟨by decide, getBraceContents_cursor_at_brace.2.1 0 ('{' :: "abc".toList ++ ['}']) 4
    ⟨"abc".toList, ⟨⟨0, 1⟩, ⟨0, 4⟩⟩⟩ (by decide) (by decide)⟩

theorem getBraceContents_none_iff_witness :
    getBraceContents ⟨0, 5⟩ "abc".toList = none :=
  (getBraceContents_none_iff 0 "abc".toList 5).2.1 (by decide)

/-! ## The magic file-path detector -/

theorem dropKeyword_suffix {k l r : List Char} (h : dropKeyword k l = some r) :
    r <:+ l := by
  induction k generalizing l with
  | nil =>
    simp only [dropKeyword] at h
    obtain rfl := Option.some_inj.mp h
    exact List.suffix_refl _
  | cons c cs ih =>
    cases l with
    | nil => cases h
    | cons x xs =>
      simp only [dropKeyword] at h
      split at h
      · exact (ih h).trans (List.suffix_cons x xs)
      · cases h

theorem magicParse_suffix {s : List Char} {cmd : String} {rest : List Char}
    (h : magicParse s = some (cmd, rest)) : rest <:+ s := by
  unfold magicParse at h
  split at h
  case h_2 => cases h
  case h_1 c l2 heq1 =>
    split at h
    case h_2 => cases h
    case h_1 e l4 heq2 =>
      have hsuf2 : l2 <:+ s := by
        refine (List.suffix_cons '%' l2).trans ?_
        rw [← heq1]
        exact List.dropWhile_suffix isJsWs
      have hsuf4 : l4 <:+ s := by
        refine List.IsSuffix.trans ?_ hsuf2
        have := List.dropWhile_suffix (l := l2) isJsWs
        rw [heq2] at this
        calc l4 <:+ '!' :: 'T' :: e :: 'X' :: l4 :=
              (((List.suffix_cons 'X' l4).trans
                (List.suffix_cons e ('X' :: l4))).trans
                  (List.suffix_cons 'T' (e :: 'X' :: l4))).trans
                    (List.suffix_cons '!' ('T' :: e :: 'X' :: l4))
          _ <:+ l2 := this
      split at h
      case isFalse => cases h
      case isTrue =>
        split at h
        case isTrue => cases h
        case isFalse =>
          have hsuf5 : l4.dropWhile isJsWs <:+ s :=
            (List.dropWhile_suffix isJsWs).trans hsuf4
          split at h
          case h_1 l6 heq3 =>
            have hsuf6 : l6 <:+ s := (dropKeyword_suffix heq3).trans hsuf5
            unfold magicAfterCmd at h
            split at h
            case h_2 => cases h
            case h_1 l8 heq4 =>
              obtain ⟨_, hrest⟩ := Prod.mk.injEq .. ▸ Option.some_inj.mp h
              have hsuf8 : l8 <:+ s := by
                refine List.IsSuffix.trans ?_ hsuf6
                refine (List.suffix_cons '=' l8).trans ?_
                rw [← heq4]
                exact List.dropWhile_suffix isJsWs
              rw [← hrest]
              exact (List.dropWhile_suffix isJsWs).trans hsuf8
          case h_2 =>
            split at h
            case h_2 => cases h
            case h_1 l6 heq3 =>
              have hsuf6 : l6 <:+ s := (dropKeyword_suffix heq3).trans hsuf5
              unfold magicAfterCmd at h
              split at h
              case h_2 => cases h
              case h_1 l8 heq4 =>
                obtain ⟨_, hrest⟩ := Prod.mk.injEq .. ▸ Option.some_inj.mp h
                have hsuf8 : l8 <:+ s := by
                  refine List.IsSuffix.trans ?_ hsuf6
                  refine (List.suffix_cons '=' l8).trans ?_
                  rw [← heq4]
                  exact List.dropWhile_suffix isJsWs
                rw [← hrest]
                exact (List.dropWhile_suffix isJsWs).trans hsuf8

/-- C6: on a line matching a `% !TeX root=` / `% !TeX bib=` directive
(case-insensitive on the `e` of `TeX`, whitespace-tolerant around `=`, as
embodied in `magicParse`), `isMagicFilePath` returns `false` when the
cursor offset is before the path's start, and otherwise returns the
directive kind, a span covering from just after the matched `=` (with
the whitespace the directive match absorbs) to the end of the line, and
the raw remaining text of the line as the path, untrimmed.  On
`"% !TeX root = main.tex"` with the cursor at or past the path start the
command is `"root"` and the path `"main.tex"`. -/
theorem isMagicFilePath_spec :
    (∀ (pt : Point) (ctx : Ctx) (cmd : String) (rest : List Char),
      magicParse ctx.line = some (cmd, rest) →
      (rest <:+ ctx.line ∧
       (ctx.index < (ctx.line.length : Int) - rest.length → isMagicFilePath pt ctx = none) ∧
       ((ctx.line.length : Int) - rest.length ≤ ctx.index →
         isMagicFilePath pt ctx = some ⟨cmd,
           ⟨⟨pt.row, (ctx.line.length : Int) - rest.length⟩,
            ⟨pt.row, (ctx.line.length : Int)⟩⟩,
           rest⟩))) ∧
    (∀ (pt : Point) (ctx : Ctx), magicParse ctx.line = none →
      isMagicFilePath pt ctx = none) ∧
    isMagicFilePath ⟨3, 14⟩
      { line := "% !TeX root = main.tex".toList, index := 14, value := [],
        startIndex := 0, endIndex := 0, range := ⟨⟨0,0⟩,⟨0,0⟩⟩, scopes := [] } =
      some ⟨"root", ⟨⟨3, 14⟩, ⟨3, 22⟩⟩, "main.tex".toList⟩ := by
  refine ⟨?_, ?_, by decide⟩
  · intro pt ctx cmd rest h
    refine ⟨magicParse_suffix h, ?_, ?_⟩
    · intro hlt
      simp only [isMagicFilePath, h]
      rw [if_pos hlt]
    · intro hge
      simp only [isMagicFilePath, h]
      rw [if_neg (by omega)]
  · intro pt ctx h
    simp only [isMagicFilePath, h]

theorem isMagicFilePath_spec_witness :
    isMagicFilePath ⟨3, 2⟩
      { line := "% !TeX bib = refs.bib".toList, index := 2, value := [],
        startIndex := 0, endIndex := 0, range := ⟨⟨0,0⟩,⟨0,0⟩⟩, scopes := [] } = none :=
  (isMagicFilePath_spec.1 ⟨3, 2⟩
      { line := "% !TeX bib = refs.bib".toList, index := 2, value := [],
        startIndex := 0, endIndex := 0, range := ⟨⟨0,0⟩,⟨0,0⟩⟩, scopes := [] }
      "bib" "refs.bib".toList (by decide)).2.1 (by decide)

/-! ## The trimming regex `/^(\s*)(.*?)(\s*)$/` -/

theorem lazySplit_append_eq {r m t : List Char} (h : lazySplit r = some (m, t)) :
    m ++ t = r := by
  induction r generalizing m t with
  | nil =>
    simp only [lazySplit] at h
    rw [Option.some_inj, Prod.mk.injEq] at h
    obtain ⟨rfl, rfl⟩ := h
    rfl
  | cons c rest ih =>
    simp only [lazySplit] at h
    split at h
    · rw [Option.some_inj, Prod.mk.injEq] at h
      obtain ⟨rfl, rfl⟩ := h
      rfl
    · split at h
      · cases h
      · obtain ⟨⟨m', t'⟩, hmt, heq⟩ := Option.map_eq_some'.mp h
        rw [Prod.mk.injEq] at heq
        obtain ⟨rfl, rfl⟩ := heq
        have := ih hmt
        simp only [List.cons_append, this]

theorem lazySplit_trailing_ws {r m t : List Char} (h : lazySplit r = some (m, t)) :
    ∀ c ∈ t, isJsWs c = true := by
  induction r generalizing m t with
  | nil =>
    simp only [lazySplit] at h
    rw [Option.some_inj, Prod.mk.injEq] at h
    obtain ⟨rfl, rfl⟩ := h
    intro c hc
    cases hc
  | cons c rest ih =>
    simp only [lazySplit] at h
    split at h
    case isTrue hall =>
      rw [Option.some_inj, Prod.mk.injEq] at h
      obtain ⟨rfl, rfl⟩ := h
      intro x hx
      exact List.all_eq_true.mp hall x hx
    case isFalse =>
      split at h
      · cases h
      · obtain ⟨⟨m', t'⟩, hmt, heq⟩ := Option.map_eq_some'.mp h
        rw [Prod.mk.injEq] at heq
        obtain ⟨rfl, rfl⟩ := heq
        exact ih hmt

theorem lazySplit_mid_last {r m t : List Char} (h : lazySplit r = some (m, t)) :
    ∀ x, m.getLast? = some x → isJsWs x = false := by
  induction r generalizing m t with
  | nil =>
    simp only [lazySplit] at h
    rw [Option.some_inj, Prod.mk.injEq] at h
    obtain ⟨rfl, rfl⟩ := h
    intro x hx
    cases hx
  | cons c rest ih =>
    simp only [lazySplit] at h
    split at h
    case isTrue =>
      rw [Option.some_inj, Prod.mk.injEq] at h
      obtain ⟨rfl, rfl⟩ := h
      intro x hx
      cases hx
    case isFalse hnall =>
      split at h
      · cases h
      · obtain ⟨⟨m', t'⟩, hmt, heq⟩ := Option.map_eq_some'.mp h
        rw [Prod.mk.injEq] at heq
        obtain ⟨rfl, rfl⟩ := heq
        intro x hx
        cases m' with
        | nil =>
          have hx' : x = c := by
            have := hx
            simp only [List.getLast?_singleton, Option.some_inj] at this
            exact this.symm
          subst hx'
          have hre := lazySplit_append_eq hmt
          have htw := lazySplit_trailing_ws hmt
          simp only [List.nil_append] at hre
          subst hre
          by_contra hcw
          apply hnall
          rw [List.all_cons]
          have hc : isJsWs x = true := by
            cases hxx : isJsWs x
            · exact absurd hxx hcw
            · rfl
          rw [hc]
          simp only [Bool.true_and]
          exact List.all_eq_true.mpr htw
        | cons y ys =>
          rw [List.getLast?_cons_cons] at hx
          exact ih hmt x hx

theorem lazySplit_isSome {r : List Char} (h : ∀ c ∈ r, isLineTerm c = false) :
    (lazySplit r).isSome := by
  induction r with
  | nil => simp [lazySplit]
  | cons c rest ih =>
    simp only [lazySplit]
    split
    · simp
    · rw [if_neg (by simp [h c (List.mem_cons_self c rest)])]
      simpa using ih (fun x hx => h x (List.mem_cons_of_mem c hx))

/-- Shrinking the greedy leading `(\s*)` group of the trimming regex
never enables a match: if the lazy middle fails on `r`, it also fails on
`w :: r` for any whitespace character `w`.  This justifies modelling
`trimCaptures` without backtracking over the leading group. -/
theorem lazySplit_cons_ws_of_none {r : List Char} (w : Char) (hw : isJsWs w = true)
    (h : lazySplit r = none) : lazySplit (w :: r) = none := by
  simp only [lazySplit]
  split
  case isTrue hall =>
    exfalso
    have hr : r.all isJsWs = true := by
      rw [List.all_cons, hw] at hall
      simpa using hall
    cases r with
    | nil => simp [lazySplit] at h
    | cons a as =>
      simp only [lazySplit] at h
      rw [if_pos hr] at h
      cases h
  case isFalse =>
    split
    · rfl
    · rw [h]
      rfl

theorem trim_decomposition_unique {r m t : List Char}
    (hmt : m ++ t = r) (ht : ∀ c ∈ t, isJsWs c = true)
    (hm : ∀ x, m.getLast? = some x → isJsWs x = false) :
    m = (r.reverse.dropWhile isJsWs).reverse ∧
    t = (r.reverse.takeWhile isJsWs).reverse := by
  subst hmt
  rw [List.reverse_append]
  have htr : ∀ c ∈ t.reverse, isJsWs c = true :=
    fun c hc => ht c (List.mem_reverse.mp hc)
  cases hlast : m.getLast? with
  | none =>
    obtain rfl : m = [] := List.getLast?_eq_none_iff.mp hlast
    constructor
    · rw [List.reverse_nil, List.dropWhile_append_of_pos htr]
      simp
    · rw [List.reverse_nil, List.takeWhile_append_of_pos htr]
      simp
  | some x =>
    have hxw := hm x hlast
    obtain ⟨ys, rfl⟩ := List.getLast?_eq_some_iff.mp hlast
    have hmrev : (ys ++ [x]).reverse = x :: ys.reverse := by simp
    constructor
    · rw [hmrev, List.dropWhile_append_of_pos htr, List.dropWhile_cons]
      rw [if_neg (by simp [hxw])]
      simp
    · rw [hmrev, List.takeWhile_append_of_pos htr, List.takeWhile_cons]
      rw [if_neg (by simp [hxw])]
      simp

theorem trimCaptures_eq_of_no_term {s : List Char}
    (h : ∀ c ∈ s, isLineTerm c = false) :
    trimCaptures s = some (s.takeWhile isJsWs,
      ((s.dropWhile isJsWs).reverse.dropWhile isJsWs).reverse,
      ((s.dropWhile isJsWs).reverse.takeWhile isJsWs).reverse) := by
  have hnt : ∀ c ∈ s.dropWhile isJsWs, isLineTerm c = false :=
    fun c hc => h c (List.Sublist.mem hc (List.dropWhile_sublist _))
  obtain ⟨⟨m, t⟩, hmt⟩ := Option.isSome_iff_exists.mp (lazySplit_isSome hnt)
  obtain ⟨hm_eq, ht_eq⟩ := trim_decomposition_unique (lazySplit_append_eq hmt)
    (lazySplit_trailing_ws hmt) (lazySplit_mid_last hmt)
  unfold trimCaptures
  rw [hmt]
  simp only [Option.map_some']
  rw [← hm_eq, ← ht_eq]


theorem trimSpanResult_eq {seg w1 mid w3 : List Char}
    (row index lo hi : Int) (cmd : List Char)
    (h : trimCaptures seg = some (w1, mid, w3)) :
    trimSpanResult row index lo hi seg cmd =
      if index < lo + (w1.length : Int) ∨ index > hi - (w3.length : Int) then .noMatch
      else .found ⟨cmd, ⟨⟨row, lo + (w1.length : Int)⟩,
        ⟨row, hi - (w3.length : Int)⟩⟩, mid⟩ := by
  unfold trimSpanResult
  rw [h]

theorem trimSpanResult_ne_err {row index lo hi : Int} {seg cmd : List Char}
    (h : ∀ c ∈ seg, isLineTerm c = false) :
    trimSpanResult row index lo hi seg cmd ≠ .err := by
  unfold trimSpanResult
  rw [trimCaptures_eq_of_no_term h]
  dsimp only
  split
  · exact fun hcon => FilePathOut.noConfusion hcon
  · exact fun hcon => FilePathOut.noConfusion hcon

theorem trimSpanResult_found_inv {row index lo hi : Int} {seg cmd : List Char}
    {r : PathResult} (h : trimSpanResult row index lo hi seg cmd = .found r) :
    r.range.start.row = row ∧ r.range.stop.row = row ∧
      r.range.start.column ≤ r.range.stop.column := by
  unfold trimSpanResult at h
  split at h
  next => cases h
  next w1 mid w3 _ =>
    split at h
    next => cases h
    next hguard =>
      push_neg at hguard
      injection h with h2
      subst h2
      exact ⟨rfl, rfl, le_trans hguard.1 hguard.2⟩

/-! ## Claims on `isFilePath` -/

/-- C4: when the prefix of the line up to the cursor ends in `\input`
followed by an unclosed `{` (the file-path regex matches with capture
`"input"`), `isFilePath` trims leading and trailing whitespace of the
brace argument from both the reported path value and the reported span,
returns no match whenever the cursor column falls outside the trimmed
span, and returns command `"input"` with the trimmed path when the
cursor is inside.  For `\input{ path/to/file }` with the cursor inside
`path/to/file` it returns path `"path/to/file"`.  (The brace argument is
assumed free of line terminators; with one present the trimming regex
can fail to match at all — see C7.) -/
theorem isFilePath_input_spec :
    (∀ (pt : Point) (ctx : Ctx),
      fileRegexSearch (jsSlice ctx.line 0 ctx.index) = some ("input".toList) →
      (∀ c ∈ ctx.value, isLineTerm c = false) →
      ((ctx.index < ctx.startIndex + (leadWsLen ctx.value : Int) ∨
          ctx.endIndex - (trailWsLen ctx.value : Int) < ctx.index →
            isFilePath pt ctx = .noMatch) ∧
       (ctx.startIndex + (leadWsLen ctx.value : Int) ≤ ctx.index →
        ctx.index ≤ ctx.endIndex - (trailWsLen ctx.value : Int) →
          isFilePath pt ctx = .found ⟨"input".toList,
            ⟨⟨pt.row, ctx.startIndex + (leadWsLen ctx.value : Int)⟩,
             ⟨pt.row, ctx.endIndex - (trailWsLen ctx.value : Int)⟩⟩,
            wsTrim ctx.value⟩))) ∧
    isFilePath ⟨0, 10⟩
      { line := "\\input".toList ++ '{' :: " path/to/file ".toList ++ ['}'],
        index := 10, value := " path/to/file ".toList,
        startIndex := 7, endIndex := 21, range := ⟨⟨0,7⟩,⟨0,21⟩⟩, scopes := [] } =
      .found ⟨"input".toList, ⟨⟨0, 8⟩, ⟨0, 20⟩⟩, "path/to/file".toList⟩ := by
  constructor
  · intro pt ctx hre hnt
    have htc := trimCaptures_eq_of_no_term hnt
    constructor
    · intro hout
      simp only [isFilePath]
      rw [hre]
      dsimp only
      rw [if_pos rfl, trimSpanResult_eq pt.row ctx.index ctx.startIndex ctx.endIndex
        ("input".toList) htc]
      rw [if_pos ?_]
      simp only [leadWsLen, trailWsLen] at hout
      simp only [List.length_reverse]
      rcases hout with h | h
      · exact Or.inl h
      · exact Or.inr h
    · intro hin1 hin2
      simp only [leadWsLen, trailWsLen] at hin1 hin2
      simp only [isFilePath]
      rw [hre]
      dsimp only
      rw [if_pos rfl, trimSpanResult_eq pt.row ctx.index ctx.startIndex ctx.endIndex
        ("input".toList) htc]
      rw [if_neg (by simp only [List.length_reverse]; omega)]
      simp only [leadWsLen, trailWsLen, wsTrim, List.length_reverse]
  · decide

theorem isFilePath_input_spec_witness :
    isFilePath ⟨0, 7⟩
      { line := "\\input".toList ++ ['{'], index := 7, value := " a ".toList,
        startIndex := 7, endIndex := 10, range := ⟨⟨0,7⟩,⟨0,10⟩⟩, scopes := [] } =
      .noMatch :=
  (isFilePath_input_spec.1 ⟨0, 7⟩
      { line := "\\input".toList ++ ['{'], index := 7, value := " a ".toList,
        startIndex := 7, endIndex := 10, range := ⟨⟨0,7⟩,⟨0,10⟩⟩, scopes := [] }
      (by decide) (by decide)).1 (Or.inl (by decide))

theorem dropKeyword_singleton (c : Char) (r : List Char) :
    dropKeyword [c] (c :: r) = some r := by
  simp [dropKeyword]

theorem dropKeyword_self_append (k r : List Char) : dropKeyword k (k ++ r) = some r := by
  induction k with
  | nil => rfl
  | cons c cs ih =>
    simp only [List.cons_append, dropKeyword]
    simpa using ih

theorem fileRegexSearch_cons_backslash {l cap : List Char}
    (h : matchCmdAt l = some cap) : fileRegexSearch ('\\' :: l) = some cap := by
  have hstep : fileRegexSearch ('\\' :: l) =
      if '\\' = '\\' then
        match matchCmdAt l with
        | some cap => some cap
        | none => fileRegexSearch l
      else fileRegexSearch l := rfl
  rw [hstep, if_pos rfl, h]

theorem fileRegexSearch_append {pre l : List Char} (h : ∀ c ∈ pre, c ≠ '\\') :
    fileRegexSearch (pre ++ l) = fileRegexSearch l := by
  induction pre with
  | nil => rfl
  | cons c cs ih =>
    simp only [List.cons_append, fileRegexSearch]
    rw [if_neg (h c (List.mem_cons_self c cs))]
    exact ih (fun x hx => h x (List.mem_cons_of_mem c hx))

/-- C10: when the prefix of the line up to the cursor is
`\inputminted{lang}{…` with the second brace still open, `isFilePath`
returns a structured result whose command field is the entire matched
capture including the first brace group — `inputminted{lang}` — not the
bare name `inputminted`, with range and path taken verbatim from the
context record. -/
theorem isFilePath_inputminted_capture (pt : Point) (ctx : Ctx)
    (pre lang rest : List Char)
    (hpre : ∀ c ∈ pre, c ≠ '\\')
    (hlang : ∀ c ∈ lang, c ≠ '}')
    (hrest : ∀ c ∈ rest, c ≠ '}')
    (hline : jsSlice ctx.line 0 ctx.index =
      pre ++ '\\' :: ("inputminted".toList ++ '{' :: (lang ++ '}' :: '{' :: rest))) :
    isFilePath pt ctx = .found ⟨"inputminted".toList ++ '{' :: (lang ++ ['}']),
      ctx.range, ctx.value⟩ := by
  have hb : List.takeWhile (fun c => c != '}') (lang ++ '}' :: '{' :: rest) = lang := by
    rw [List.takeWhile_append_of_pos (by intro x hx; simpa using hlang x hx)]
    rw [List.takeWhile_cons, if_neg (by decide)]
    simp
  have hd : List.dropWhile (fun c => c != '}') (lang ++ '}' :: '{' :: rest) =
      '}' :: '{' :: rest := by
    rw [List.dropWhile_append_of_pos (by intro x hx; simpa using hlang x hx)]
    rw [List.dropWhile_cons, if_neg (by decide)]
  have hmt : matchTail ('{' :: rest) = true := by
    simp only [matchTail]
    rw [List.dropWhile_cons, if_neg (by decide)]
    simp only [restNoBrace, List.all_eq_true]
    intro x hx
    simpa using hrest x hx
  have hA : altInputminted ("inputminted".toList ++ '{' :: (lang ++ '}' :: '{' :: rest)) =
      some ("inputminted".toList ++ '{' :: (lang ++ ['}'])) := by
    simp only [altInputminted]
    rw [dropKeyword_self_append]
    dsimp only
    rw [List.dropWhile_cons, if_neg (by decide), dropKeyword_singleton]
    dsimp only
    rw [hd, dropKeyword_singleton]
    dsimp only
    rw [hb, if_pos hmt]
    rw [List.takeWhile_cons, if_neg (by decide)]
    simp
  have hm : matchCmdAt ("inputminted".toList ++ '{' :: (lang ++ '}' :: '{' :: rest)) =
      some ("inputminted".toList ++ '{' :: (lang ++ ['}'])) := by
    simp only [matchCmdAt, hA, Option.some_orElse]
  have hsearch : fileRegexSearch (jsSlice ctx.line 0 ctx.index) =
      some ("inputminted".toList ++ '{' :: (lang ++ ['}'])) := by
    rw [hline, fileRegexSearch_append hpre]
    exact fileRegexSearch_cons_backslash hm
  have hne1 : "inputminted".toList ++ '{' :: (lang ++ ['}']) ≠ "input".toList := by
    intro h
    have hg : List.get? ("inputminted".toList ++ '{' :: (lang ++ ['}'])) 5 = some 'm' := rfl
    rw [h] at hg
    exact absurd hg (by decide)
  have hne2 : "inputminted".toList ++ '{' :: (lang ++ ['}']) ≠ "include".toList := by
    intro h
    have hg : List.get? ("inputminted".toList ++ '{' :: (lang ++ ['}'])) 2 = some 'p' := rfl
    rw [h] at hg
    exact absurd hg (by decide)
  have hne3 : "inputminted".toList ++ '{' :: (lang ++ ['}']) ≠ "includeonly".toList := by
    intro h
    have hg : List.get? ("inputminted".toList ++ '{' :: (lang ++ ['}'])) 2 = some 'p' := rfl
    rw [h] at hg
    exact absurd hg (by decide)
  have hne4 : "inputminted".toList ++ '{' :: (lang ++ ['}']) ≠ "includegraphics".toList := by
    intro h
    have hg : List.get? ("inputminted".toList ++ '{' :: (lang ++ ['}'])) 2 = some 'p' := rfl
    rw [h] at hg
    exact absurd hg (by decide)
  simp only [isFilePath]
  rw [hsearch]
  dsimp only
  rw [if_neg hne1, if_neg (by rintro (h | h); exacts [hne2 h, hne3 h]), if_neg hne4]

theorem isFilePath_inputminted_capture_witness :
    isFilePath ⟨0, 19⟩
      { line := "\\inputminted".toList ++ '{' :: "lang".toList ++ '}' :: ['{'],
        index := 19, value := "v".toList,
        startIndex := 19, endIndex := 20, range := ⟨⟨1,2⟩,⟨3,4⟩⟩, scopes := [] } =
      .found ⟨"inputminted".toList ++ '{' :: ("lang".toList ++ ['}']), ⟨⟨1,2⟩,⟨3,4⟩⟩,
        "v".toList⟩ :=
  isFilePath_inputminted_capture ⟨0, 19⟩
    { line := "\\inputminted".toList ++ '{' :: "lang".toList ++ '}' :: ['{'],
      index := 19, value := "v".toList,
      startIndex := 19, endIndex := 20, range := ⟨⟨1,2⟩,⟨3,4⟩⟩, scopes := [] }
    [] "lang".toList []
    (by intro c hc; cases hc) (by decide) (by intro c hc; cases hc) (by decide)

/-! ## C7: exception safety -/

theorem jsSlice_subset {l : List Char} {a b : Int} {c : Char} (h : c ∈ jsSlice l a b) :
    c ∈ l := by
  unfold jsSlice at h
  exact List.mem_of_mem_take (List.mem_of_mem_drop h)

/-- C7 (counterexample): with the line prefix `\input{` at the cursor and
a caller-supplied token value `"a\nb"` — a line terminator strictly
between non-whitespace characters — the trimming regex
`/^(\s*)(.*?)(\s*)$/` fails to match and the source dereferences the
`null` match result, raising a `TypeError` instead of degrading to
`false`. -/
theorem isFilePath_err_example :
    isFilePath ⟨0, 7⟩
      { line := "\\input".toList ++ ['{'], index := 7, value := ['a', '\n', 'b'],
        startIndex := 7, endIndex := 10, range := ⟨⟨0,7⟩,⟨0,10⟩⟩, scopes := [] } =
      .err := by decide

/-- C7 (amended): provided the context's line and value fields contain no
line-terminator characters, `isFilePath` never raises — every path
returns `false` or a structured result.  The other six classifiers are
total for all inputs by construction (their embeddings have no error
outcome); `isFilePath` alone dereferences the `fileNameRegex` match
unconditionally, which throws exactly when that regex fails, i.e. when
the trimmed string has a line terminator strictly between
non-whitespace characters. -/
theorem isFilePath_no_err (pt : Point) (ctx : Ctx)
    (hv : ∀ c ∈ ctx.value, isLineTerm c = false)
    (hl : ∀ c ∈ ctx.line, isLineTerm c = false) :
    isFilePath pt ctx ≠ .err := by
  unfold isFilePath
  cases hs : fileRegexSearch (jsSlice ctx.line 0 ctx.index) with
  | none => exact fun hcon => FilePathOut.noConfusion hcon
  | some cmd =>
    dsimp only
    by_cases h1 : cmd = "input".toList
    · rw [if_pos h1]
      exact trimSpanResult_ne_err hv
    · rw [if_neg h1]
      by_cases h2 : cmd = "include".toList ∨ cmd = "includeonly".toList
      · rw [if_pos h2]
        repeat' split
        all_goals
          first
          | exact fun hcon => FilePathOut.noConfusion hcon
          | exact trimSpanResult_ne_err (fun c hc => hl c (jsSlice_subset hc))
      · rw [if_neg h2]
        split
        · exact fun hcon => FilePathOut.noConfusion hcon
        · exact fun hcon => FilePathOut.noConfusion hcon

theorem isFilePath_no_err_witness :
    isFilePath ⟨0, 3⟩
      { line := "abc".toList, index := 3, value := "v".toList,
        startIndex := 0, endIndex := 1, range := ⟨⟨0,0⟩,⟨0,1⟩⟩, scopes := [] } ≠ .err :=
  isFilePath_no_err ⟨0, 3⟩
    { line := "abc".toList, index := 3, value := "v".toList,
      startIndex := 0, endIndex := 1, range := ⟨⟨0,0⟩,⟨0,1⟩⟩, scopes := [] }
    (by decide) (by decide)

/-! ## C8: the span invariant -/

/-- C8 (counterexample): `isFilePath` on an `\includegraphics` line
returns the caller-supplied `context.range` verbatim; supplying a range
on the wrong row with inverted columns yields a structured result whose
span violates the invariant (start row differs from the cursor row and
start.column exceeds end.column). -/
theorem isFilePath_range_passthrough :
    isFilePath ⟨0, 18⟩
      { line := "\\includegraphics".toList ++ '{' :: ['x'], index := 18,
        value := "x".toList, startIndex := 17, endIndex := 18,
        range := ⟨⟨5, 9⟩, ⟨0, 2⟩⟩, scopes := [] } =
      .found ⟨"includegraphics".toList, ⟨⟨5, 9⟩, ⟨0, 2⟩⟩, "x".toList⟩ ∧
    (⟨⟨5, 9⟩, ⟨0, 2⟩⟩ : JsRange).start.row ≠ (0 : Int) ∧
    (⟨⟨5, 9⟩, ⟨0, 2⟩⟩ : JsRange).stop.column < (⟨⟨5, 9⟩, ⟨0, 2⟩⟩ : JsRange).start.column :=
  ⟨by decide, by decide, by decide⟩

/-- C8 (amended): every span CONSTRUCTED by a classifier satisfies the
invariant — both endpoints on the supplied cursor row and
start.column ≤ end.column: unconditionally for `isMagicFilePath` and
`getBraceContents`, and for `isFilePath` whenever the caller-supplied
`context.range` itself satisfies the invariant (the `includegraphics`
and generic branches return that range verbatim, so the invariant is
only preserved, not established, there). -/
theorem span_invariant_amended :
    (∀ (pt : Point) (s : List Char) (r : BraceResult),
      getBraceContents pt s = some r →
      r.range.start.row = pt.row ∧ r.range.stop.row = pt.row ∧
        r.range.start.column ≤ r.range.stop.column) ∧
    (∀ (pt : Point) (ctx : Ctx) (r : MagicResult),
      isMagicFilePath pt ctx = some r →
      r.range.start.row = pt.row ∧ r.range.stop.row = pt.row ∧
        r.range.start.column ≤ r.range.stop.column) ∧
    (∀ (pt : Point) (ctx : Ctx) (r : PathResult),
      ctx.range.start.row = pt.row → ctx.range.stop.row = pt.row →
      ctx.range.start.column ≤ ctx.range.stop.column →
      isFilePath pt ctx = .found r →
      r.range.start.row = pt.row ∧ r.range.stop.row = pt.row ∧
        r.range.start.column ≤ r.range.stop.column) := by
  refine ⟨?_, ?_, ?_⟩
  · intro pt s r h
    obtain ⟨prow, pcol⟩ := pt
    by_cases hc : pcol ≤ 0
    · rw [getBraceContents_nonpos ⟨prow, pcol⟩ s hc] at h
      cases h
    · obtain ⟨col, rfl⟩ : ∃ col : Nat, pcol = (col : Int) := ⟨pcol.toNat, by omega⟩
      obtain ⟨i, j, h1, h2, _, _, _, rfl⟩ := getBraceContents_some_iff.mp h
      refine ⟨rfl, rfl, ?_⟩
      show (i : Int) + 1 ≤ (j : Int)
      omega
  · intro pt ctx r h
    unfold isMagicFilePath at h
    cases hm : magicParse ctx.line with
    | none => rw [hm] at h; cases h
    | some p =>
      rw [hm] at h
      dsimp only at h
      split at h
      · cases h
      · obtain rfl := Option.some_inj.mp h.symm
        refine ⟨rfl, rfl, ?_⟩
        show (ctx.line.length : Int) - p.2.length ≤ (ctx.line.length : Int)
        omega
  · intro pt ctx r hr1 hr2 hr3 h
    unfold isFilePath at h
    cases hs : fileRegexSearch (jsSlice ctx.line 0 ctx.index) with
    | none => rw [hs] at h; cases h
    | some cmd =>
      rw [hs] at h
      dsimp only at h
      by_cases h1 : cmd = "input".toList
      · rw [if_pos h1] at h
        exact trimSpanResult_found_inv h
      · rw [if_neg h1] at h
        by_cases h2 : cmd = "include".toList ∨ cmd = "includeonly".toList
        · rw [if_pos h2] at h
          repeat' split at h
          all_goals
            first
            | cases h
            | exact trimSpanResult_found_inv h
        · rw [if_neg h2] at h
          split at h
          all_goals
            injection h with h2
            subst h2
            exact ⟨hr1, hr2, hr3⟩

theorem span_invariant_amended_witness :
    (⟨"abc".toList, ⟨⟨0, 6⟩, ⟨0, 9⟩⟩⟩ : BraceResult).range.start.row = (0 : Int) ∧
    (⟨"abc".toList, ⟨⟨0, 6⟩, ⟨0, 9⟩⟩⟩ : BraceResult).range.stop.row = (0 : Int) ∧
    (⟨"abc".toList, ⟨⟨0, 6⟩, ⟨0, 9⟩⟩⟩ : BraceResult).range.start.column ≤
      (⟨"abc".toList, ⟨⟨0, 6⟩, ⟨0, 9⟩⟩⟩ : BraceResult).range.stop.column :=
  span_invariant_amended.1 ⟨0, 7⟩ ("\\cite".toList ++ '{' :: "abc".toList ++ ['}'])
    ⟨"abc".toList, ⟨⟨0, 6⟩, ⟨0, 9⟩⟩⟩ (by decide)

/-! ## C5: the `include`/`includeonly` comma-segment branch -/

theorem jsSlice_length {l : List Char} {a b : Int} (h0 : 0 ≤ a) (hab : a ≤ b)
    (hb : b ≤ (l.length : Int)) : ((jsSlice l a b).length : Int) = b - a := by
  simp only [jsSlice]
  rw [if_neg (by omega : ¬ (a < 0)), if_neg (by omega : ¬ (b < 0))]
  simp only [List.length_drop, List.length_take]
  omega

theorem jsSlice_comp {l : List Char} {a b : Int} (s e : Nat)
    (h0 : 0 ≤ a) (hab : a ≤ b) (hb : b ≤ (l.length : Int))
    (hse : s ≤ e) (he : (e : Int) ≤ b - a) :
    jsSlice l (a + (s : Int)) (a + (e : Int)) = ((jsSlice l a b).take e).drop s := by
  simp only [jsSlice]
  rw [if_neg (by omega : ¬ (a + (s : Int) < 0)), if_neg (by omega : ¬ (a + (e : Int) < 0)),
      if_neg (by omega : ¬ (a < 0)), if_neg (by omega : ¬ (b < 0))]
  have e1 : (min (a + (e : Int)) (l.length : Int)).toNat = a.toNat + e := by omega
  have e2 : (min (a + (s : Int)) (l.length : Int)).toNat = a.toNat + s := by omega
  have e3 : (min b (l.length : Int)).toNat = b.toNat := by omega
  have e4 : (min a (l.length : Int)).toNat = a.toNat := by omega
  rw [e1, e2, e3, e4]
  simp only [List.drop_take, List.take_take, List.drop_drop]
  congr 1
  omega

theorem segBounds_le (value : List Char) (vi : Nat) :
    (segBounds value vi).1 ≤ (segBounds value vi).2 ∧
    (segBounds value vi).2 ≤ value.length := by
  unfold segBounds
  cases hlst : lastIdx (value.take vi) ',' with
  | none =>
    cases hf : firstIdx (value.drop vi) ',' with
    | none => simp
    | some b =>
      dsimp only
      have h1 := (firstIdx_eq_some_iff.mp hf).1
      rw [List.getElem?_drop] at h1
      obtain ⟨hlt, _⟩ := List.getElem?_eq_some.mp h1
      omega
  | some a =>
    have h1 := (lastIdx_eq_some_iff.mp hlst).1
    rw [getElem?_take_eq_some_iff] at h1
    obtain ⟨hlt, _⟩ := List.getElem?_eq_some.mp h1.2
    cases hf : firstIdx (value.drop vi) ',' with
    | none =>
      dsimp only
      omega
    | some b =>
      dsimp only
      have hav : a < vi := h1.1
      have h2 := (firstIdx_eq_some_iff.mp hf).1
      rw [List.getElem?_drop] at h2
      obtain ⟨hlt2, _⟩ := List.getElem?_eq_some.mp h2
      omega

/-- C5: for `\include` and `\includeonly`, `isFilePath` isolates the
comma-delimited segment of the brace argument containing the cursor —
bounded by the nearest comma at or before the cursor and the nearest
comma at or after it, defaulting to the argument boundaries when a comma
is absent (`segBounds`) — and trims whitespace within that segment: any
structured result carries the trimmed segment as the path and the
trimmed sub-span as its range with the cursor inside it, and whenever the
cursor falls outside the trimmed sub-span the result is no match.  For
`\include{a, b, c}` with the cursor inside `b` it returns path `"b"`.
Hypotheses: the file-path regex matched with capture
`include`/`includeonly`, the context's value is the line slice
`[startIndex, endIndex)`, the line is free of line terminators, and
`0 ≤ startIndex ≤ index` with `startIndex ≤ endIndex ≤ line.length`. -/
theorem isFilePath_include_spec :
    (∀ (pt : Point) (ctx : Ctx) (cmd : List Char),
      (cmd = "include".toList ∨ cmd = "includeonly".toList) →
      fileRegexSearch (jsSlice ctx.line 0 ctx.index) = some cmd →
      ctx.value = jsSlice ctx.line ctx.startIndex ctx.endIndex →
      (∀ c ∈ ctx.line, isLineTerm c = false) →
      0 ≤ ctx.startIndex →
      ctx.startIndex ≤ ctx.endIndex →
      ctx.endIndex ≤ (ctx.line.length : Int) →
      ctx.startIndex ≤ ctx.index →
      (((ctx.index < includeNs ctx.startIndex ctx.value (ctx.index - ctx.startIndex).toNat ∨
          includeNe ctx.startIndex ctx.value (ctx.index - ctx.startIndex).toNat < ctx.index) →
         isFilePath pt ctx = .noMatch) ∧
       (∀ r : PathResult, isFilePath pt ctx = .found r →
         r.command = cmd ∧
         r.path = wsTrim (includeSeg ctx.value (ctx.index - ctx.startIndex).toNat) ∧
         r.range = ⟨⟨pt.row,
             includeNs ctx.startIndex ctx.value (ctx.index - ctx.startIndex).toNat⟩,
           ⟨pt.row, includeNe ctx.startIndex ctx.value (ctx.index - ctx.startIndex).toNat⟩⟩ ∧
         includeNs ctx.startIndex ctx.value (ctx.index - ctx.startIndex).toNat ≤ ctx.index ∧
         ctx.index ≤ includeNe ctx.startIndex ctx.value (ctx.index - ctx.startIndex).toNat))) ∧
    isFilePath ⟨0, 13⟩
      { line := "\\include".toList ++ '{' :: "a, b, c".toList ++ ['}'],
        index := 13, value := "a, b, c".toList,
        startIndex := 9, endIndex := 16, range := ⟨⟨0,9⟩,⟨0,16⟩⟩, scopes := [] } =
      .found ⟨"include".toList, ⟨⟨0, 12⟩, ⟨0, 13⟩⟩, "b".toList⟩ := by
  constructor
  · intro pt ctx cmd hcmd hre hval hlnt h0 hmid hend hsi
    have hcmd1 : cmd ≠ "input".toList := by
      rcases hcmd with rfl | rfl <;> decide
    set vi : Nat := (ctx.index - ctx.startIndex).toNat with hvi
    by_cases hq : ctx.index = ctx.startIndex ∧ ctx.value[0]? = some ','
    · -- the clamped backward search finds the comma at offset 0 and the
      -- empty-section guard rejects: the source returns false outright
      obtain ⟨hq1, hq2⟩ := hq
      have hA0 : jsLastIndexOf ctx.value ',' (ctx.index - ctx.startIndex - 1) = (0 : Int) := by
        have h00 := (@jsLastIndexOf_eq_coe_iff ctx.value ','
          (ctx.index - ctx.startIndex - 1) 0).mpr
          ⟨by omega, hq2, by intro j hj1 hj2; omega⟩
        simpa using h00
      have hB0 : jsIndexOf ctx.value ',' (ctx.index - ctx.startIndex) = (0 : Int) := by
        have h00 := (@jsIndexOf_eq_coe_iff ctx.value ','
          (ctx.index - ctx.startIndex) 0).mpr
          ⟨by omega, hq2, by intro k hk1 hk2; omega⟩
        simpa using h00
      have hres : isFilePath pt ctx = .noMatch := by
        simp only [isFilePath]
        rw [hre]
        dsimp only
        rw [if_neg hcmd1, if_pos hcmd, hA0, hB0]
        rw [if_neg (by omega : ¬ (ctx.startIndex + (0 : Int) < ctx.startIndex))]
        rw [if_neg (by omega : ¬ (ctx.startIndex + (0 : Int) < ctx.startIndex))]
        rw [if_pos (by omega)]
      refine ⟨fun _ => hres, ?_⟩
      intro r hfound
      rw [hres] at hfound
      cases hfound
    · -- the backward and forward comma searches agree with `segBounds`
      have hA : (if ctx.startIndex + jsLastIndexOf ctx.value ',' (ctx.index - ctx.startIndex - 1)
            < ctx.startIndex then ctx.startIndex
          else ctx.startIndex + jsLastIndexOf ctx.value ',' (ctx.index - ctx.startIndex - 1) + 1)
          = ctx.startIndex + (((segBounds ctx.value vi).1 : Nat) : Int) := by
        by_cases hv1 : ctx.startIndex + 1 ≤ ctx.index
        · have hteq : ((ctx.index - ctx.startIndex - 1).toNat + 1) = vi := by omega
          unfold jsLastIndexOf segBounds
          rw [hteq]
          cases hlst : lastIdx (ctx.value.take vi) ',' with
          | none =>
            dsimp only
            rw [if_pos (by omega)]
            simp
          | some a =>
            dsimp only
            rw [if_neg (by omega)]
            push_cast
            ring
        · have hidx : ctx.index = ctx.startIndex := by omega
          have hv0 : ctx.value[0]? ≠ some ',' := fun hcon => hq ⟨hidx, hcon⟩
          have hA1 : jsLastIndexOf ctx.value ',' (ctx.index - ctx.startIndex - 1) = -1 := by
            rw [jsLastIndexOf_eq_neg_one_iff]
            intro j hj hocc
            have hj0 : j = 0 := by omega
            rw [hj0] at hocc
            exact hv0 hocc
          rw [hA1, if_pos (by omega)]
          have hvi0 : vi = 0 := by omega
          rw [hvi0]
          simp [segBounds, lastIdx]
      have hvlen : (ctx.value.length : Int) = ctx.endIndex - ctx.startIndex := by
        rw [hval]
        exact jsSlice_length h0 hmid hend
      have hB : (if ctx.startIndex + jsIndexOf ctx.value ',' (ctx.index - ctx.startIndex)
            < ctx.startIndex then ctx.endIndex
          else ctx.startIndex + jsIndexOf ctx.value ',' (ctx.index - ctx.startIndex))
          = ctx.startIndex + (((segBounds ctx.value vi).2 : Nat) : Int) := by
        unfold jsIndexOf segBounds
        rw [← hvi]
        cases hfst : firstIdx (ctx.value.drop vi) ',' with
        | none =>
          dsimp only
          rw [if_pos (by omega)]
          omega
        | some i =>
          dsimp only
          rw [if_neg (by omega)]
      have hexp : isFilePath pt ctx =
          (if ctx.startIndex + (((segBounds ctx.value vi).2 : Nat) : Int) -
              (ctx.startIndex + (((segBounds ctx.value vi).1 : Nat) : Int)) < 1
           then .noMatch
           else trimSpanResult pt.row ctx.index
             (ctx.startIndex + (((segBounds ctx.value vi).1 : Nat) : Int))
             (ctx.startIndex + (((segBounds ctx.value vi).2 : Nat) : Int))
             (jsSlice ctx.line
               (ctx.startIndex + (((segBounds ctx.value vi).1 : Nat) : Int))
               (ctx.startIndex + (((segBounds ctx.value vi).2 : Nat) : Int))) cmd) := by
        simp only [isFilePath]
        rw [hre]
        dsimp only
        rw [if_neg hcmd1, if_pos hcmd, hA, hB]
      have hsegb := segBounds_le ctx.value vi
      have hseg : jsSlice ctx.line
          (ctx.startIndex + (((segBounds ctx.value vi).1 : Nat) : Int))
          (ctx.startIndex + (((segBounds ctx.value vi).2 : Nat) : Int)) =
          includeSeg ctx.value vi := by
        rw [jsSlice_comp (segBounds ctx.value vi).1 (segBounds ctx.value vi).2 h0 hmid hend
          hsegb.1 (by omega)]
        rw [← hval]
        rfl
      have hsegnt : ∀ c ∈ includeSeg ctx.value vi, isLineTerm c = false := by
        intro c hc
        simp only [includeSeg] at hc
        refine hlnt c ?_
        have h1 := List.mem_of_mem_drop hc
        have h2 := List.mem_of_mem_take h1
        rw [hval] at h2
        exact jsSlice_subset h2
      have htseg := trimCaptures_eq_of_no_term hsegnt
      constructor
      · intro hout
        rw [hexp]
        by_cases hg1 : (((segBounds ctx.value vi).2 : Nat) : Int) -
            ((segBounds ctx.value vi).1 : Nat) < 1
        · rw [if_pos (by omega)]
        · rw [if_neg (by omega), hseg,
            trimSpanResult_eq pt.row ctx.index
              (ctx.startIndex + (((segBounds ctx.value vi).1 : Nat) : Int))
              (ctx.startIndex + (((segBounds ctx.value vi).2 : Nat) : Int)) cmd htseg]
          rw [if_pos ?_]
          simp only [includeNs, includeNe, leadWsLen, trailWsLen] at hout
          simp only [List.length_reverse]
          rcases hout with h | h
          · exact Or.inl h
          · exact Or.inr h
      · intro r hfound
        rw [hexp] at hfound
        by_cases hg1 : (((segBounds ctx.value vi).2 : Nat) : Int) -
            ((segBounds ctx.value vi).1 : Nat) < 1
        · rw [if_pos (by omega)] at hfound
          cases hfound
        · rw [if_neg (by omega), hseg,
            trimSpanResult_eq pt.row ctx.index
              (ctx.startIndex + (((segBounds ctx.value vi).1 : Nat) : Int))
              (ctx.startIndex + (((segBounds ctx.value vi).2 : Nat) : Int)) cmd htseg] at hfound
          simp only [List.length_reverse] at hfound
          split at hfound
          next => cases hfound
          next hguard =>
            push_neg at hguard
            injection hfound with h2
            subst h2
            exact ⟨rfl, rfl, rfl, hguard.1, hguard.2⟩
  · decide

theorem isFilePath_include_spec_witness :
    isFilePath ⟨0, 11⟩
      { line := "\\include".toList ++ '{' :: "a, b, c".toList ++ ['}'],
        index := 11, value := "a, b, c".toList,
        startIndex := 9, endIndex := 16, range := ⟨⟨0,9⟩,⟨0,16⟩⟩, scopes := [] } =
      .noMatch :=
  (isFilePath_include_spec.1 ⟨0, 11⟩
      { line := "\\include".toList ++ '{' :: "a, b, c".toList ++ ['}'],
        index := 11, value := "a, b, c".toList,
        startIndex := 9, endIndex := 16, range := ⟨⟨0,9⟩,⟨0,16⟩⟩, scopes := [] }
      ("include".toList) (Or.inl rfl) (by decide) (by decide) (by decide)
      (by decide) (by decide) (by decide) (by decide)).1 (Or.inl (by decide))
